import Mathlib

set_option maxHeartbeats 1000000
set_option maxRecDepth 4096

/-!
Shallow embedding of the weebasic compiler and bytecode interpreter
(src/weebasic.c) together with proofs about the emitted code and the
virtual machine.  The C cursor (a pointer into the source text) is
modelled as the remaining suffix of the input, a list of characters;
C functions that print a message and call exit(-1) are modelled with
Except; machine integers are Int, wrapped at 64 bits exactly where the
C arithmetic can overflow.
-/

/-- Capacity of the malloc allocated instruction array (MAX_INSTRS). -/
def MAX_INSTRS : Nat := 65536

/-- Capacity of identifier buffers (MAX_IDENT_LEN). -/
def MAX_IDENT_LEN : Nat := 64

/-- Capacity of the interpreter locals array (MAX_LOCALS). -/
def MAX_LOCALS : Nat := 128

/-- Capacity of the interpreter operand stack (MAX_STACK). -/
def MAX_STACK : Nat := 32

/-- Wrap an integer into the int64_t range, as the C arithmetic does in
practice.  Signed overflow in C is undefined; the spec documents the
observed wrap around as the intended model. -/
def i64 (x : Int) : Int := (x + 2 ^ 63) % 2 ^ 64 - 2 ^ 63

/-- Kinds of instructions (opcode_t); OP_EXIT is the explicit zero member
of the C enum. -/
inductive Op
  | exit
  | error
  | push
  | getlocal
  | setlocal
  | eq
  | lt
  | if_
  | ifnot
  | add
  | sub
  | readint
  | print
deriving DecidableEq

/-- An instruction (instr_t): opcode plus immediate.  The C immediate is a
64 bit union read either as int64_t or as an index; it is modelled as Int.
The APPEND_INSN macro leaves the immediate zero initialised. -/
structure Instr where
  op : Op
  imm : Int
deriving DecidableEq

/-- Characters consumed by eat_ws. -/
def is_ws (c : Char) : Bool := c == ' ' || c == '\t' || c == '\r' || c == '\n'

/-- Consume whitespace characters at the cursor (eat_ws). -/
def eat_ws (s : List Char) : List Char := s.dropWhile is_ws

/-- Consume a single line comment up to and including the newline, or to the
end of the input (eat_comment). -/
def eat_comment : List Char → List Char
  | [] => []
  | c :: rest => if c == '\n' then rest else eat_comment rest

/-- Match a literal token (match_token): skip leading whitespace, compare
the next characters against the token, and on success consume them together
with any following whitespace.  On failure the cursor stays where the
leading whitespace ended, because the C code already advanced the pointer
through eat_ws before comparing. -/
def match_token (s : List Char) (tok : List Char) : Bool × List Char :=
  let s1 := eat_ws s
  if tok.isPrefixOf s1 then (true, eat_ws (s1.drop tok.length)) else (false, s1)

/-- Parse time fatal conditions; the C code prints a message to stderr and
calls exit(-1).  The outOfFuel value is an artifact of the fuel bound on
recursion depth in this model, not a C behaviour. -/
inductive PErr
  | expectedToken (tok : List Char)
  | identTooLong
  | expectedIdent
  | undeclaredVar (id : String)
  | alreadyDeclared (id : String)
  | invalidExpr
  | invalidStmt
  | outOfFuel
deriving DecidableEq

/-- Fail to parse if a given token is not there (expect_token). -/
def expect_token (s : List Char) (tok : List Char) : Except PErr (List Char) :=
  match match_token s tok with
  | (true, s1) => .ok s1
  | (false, _) => .error (.expectedToken tok)

/-- Identifier characters: isalnum or underscore. -/
def is_ident_char (c : Char) : Bool := c.isAlphanum || c == '_'

/-- Loop of parse_ident.  The C code checks the length bound before looking
at the current character, so an identifier reaching MAX_IDENT_LEN - 1
characters is fatal even when it ends exactly there. -/
def parse_ident_go : List Char → List Char → Except PErr (String × List Char)
  | [], acc =>
    if MAX_IDENT_LEN - 1 ≤ acc.length then .error .identTooLong
    else if acc.length = 0 then .error .expectedIdent
    else .ok (String.mk acc, [])
  | c :: rest, acc =>
    if MAX_IDENT_LEN - 1 ≤ acc.length then .error .identTooLong
    else if is_ident_char c then parse_ident_go rest (acc ++ [c])
    else if acc.length = 0 then .error .expectedIdent
    else .ok (String.mk acc, c :: rest)

/-- Parse an identifier (parse_ident). -/
def parse_ident (s : List Char) : Except PErr (String × List Char) :=
  parse_ident_go s []

/-- Loop of parse_int; the accumulator follows the C int64_t arithmetic. -/
def parse_int_go : List Char → Int → Int × List Char
  | [], num => (num, [])
  | c :: rest, num =>
    if c.isDigit then parse_int_go rest (i64 (10 * num + ((c.toNat : Int) - 48)))
    else (num, c :: rest)

/-- Parse a positive integer constant (parse_int). -/
def parse_int (s : List Char) : Int × List Char := parse_int_go s 0

/-- Chain of local variable declarations (local_t), most recent first.
Each entry is the variable name and its slot index. -/
abbrev Locals := List (String × Nat)

/-- Walk the chain for a declaration with the given name (find_local). -/
def find_local : Locals → String → Option (String × Nat)
  | [], _ => none
  | v :: rest, id => if v.1 = id then some v else find_local rest id

/-- Append an instruction to the program (the APPEND_INSN and
APPEND_INSN_IMM macros).  The C macros write at insn_idx and increment it
with no capacity check against MAX_INSTRS. -/
def APPEND_INSN (insns : List Instr) (i : Instr) : List Instr := insns ++ [i]

/-- Overwrite the immediate of the instruction at a given index, keeping
its opcode: the back patching store through the ifnot_insn pointer. -/
def patch_imm (insns : List Instr) (idx : Nat) (imm : Int) : List Instr :=
  insns.set idx ⟨(insns.getD idx ⟨.exit, 0⟩).op, imm⟩

/-- Parse an atomic expression (parse_atom).  The C code saves the current
character before trying to match read_int and tests that saved character
afterwards, while the later branches continue from the cursor as advanced
by the failed match (which only skipped leading whitespace). -/
def parse_atom (s : List Char) (insns : List Instr) (locals : Locals) :
    Except PErr (List Char × List Instr) :=
  match match_token s (("read_int").toList) with
  | (true, s1) => .ok (s1, APPEND_INSN insns ⟨.readint, 0⟩)
  | (false, s1) =>
    if (s.headD (Char.ofNat 0)).isDigit then
      .ok ((parse_int s1).2, APPEND_INSN insns ⟨.push, (parse_int s1).1⟩)
    else if (s.headD (Char.ofNat 0)).isAlpha || s.headD (Char.ofNat 0) == '_' then
      match parse_ident s1 with
      | .error e => .error e
      | .ok (id, s2) =>
        match find_local locals id with
        | none => .error (.undeclaredVar id)
        | some l => .ok (s2, APPEND_INSN insns ⟨.getlocal, (l.2 : Int)⟩)
    else .error .invalidExpr

/-- Parse an expression (parse_expr): one atom followed by at most one
binary operator and one further atom. -/
def parse_expr (s : List Char) (insns : List Instr) (locals : Locals) :
    Except PErr (List Char × List Instr) :=
  match parse_atom s insns locals with
  | .error e => .error e
  | .ok (s1, insns1) =>
    match match_token (eat_ws s1) (("+").toList) with
    | (true, s3) =>
      match parse_atom s3 insns1 locals with
      | .error e => .error e
      | .ok (s4, insns2) => .ok (s4, APPEND_INSN insns2 ⟨.add, 0⟩)
    | (false, s3) =>
      match match_token s3 (("-").toList) with
      | (true, s4) =>
        match parse_atom s4 insns1 locals with
        | .error e => .error e
        | .ok (s5, insns2) => .ok (s5, APPEND_INSN insns2 ⟨.sub, 0⟩)
      | (false, s4) =>
        match match_token s4 (("==").toList) with
        | (true, s5) =>
          match parse_atom s5 insns1 locals with
          | .error e => .error e
          | .ok (s6, insns2) => .ok (s6, APPEND_INSN insns2 ⟨.eq, 0⟩)
        | (false, s5) =>
          match match_token s5 (("<").toList) with
          | (true, s6) =>
            match parse_atom s6 insns1 locals with
            | .error e => .error e
            | .ok (s7, insns2) => .ok (s7, APPEND_INSN insns2 ⟨.lt, 0⟩)
          | (false, s6) => .ok (s6, insns1)

/-- Slot index for a new local declaration: index of the head of the chain
plus one, or 0 for the first declaration. -/
def next_idx (locals : Locals) : Nat :=
  match locals with
  | [] => 0
  | v :: _ => v.2 + 1

/-- Combined recursion for parse_stmt (mode false) and for the statement
loop inside a begin block (mode true); the two are mutually recursive in
the C code, and the single fuel argument bounds the recursion depth only.
The C recursion terminates because every recursive call works on a strict
suffix of the text of its caller. -/
def parse_go : Nat → Bool → List Char → List Instr → Locals →
    Except PErr (List Char × List Instr × Locals)
  | 0, _, _, _, _ => .error .outOfFuel
  | fuel+1, true, s, insns, locals =>
    match match_token s (("end").toList) with
    | (true, s1) => .ok (s1, insns, locals)
    | (false, s1) =>
      match parse_go fuel false s1 insns locals with
      | .error e => .error e
      | .ok (s2, insns1, locals1) => parse_go fuel true s2 insns1 locals1
  | fuel+1, false, s, insns, locals =>
    match match_token (eat_ws s) (("#").toList) with
    | (true, s1) => .ok (eat_comment s1, insns, locals)
    | (false, s1) =>
      match match_token s1 (("let").toList) with
      | (true, s2) =>
        match parse_ident s2 with
        | .error e => .error e
        | .ok (id, s3) =>
          match expect_token s3 (("=").toList) with
          | .error e => .error e
          | .ok s4 =>
            match parse_expr s4 insns locals with
            | .error e => .error e
            | .ok (s5, insns1) =>
              match find_local locals id with
              | some _ => .error (.alreadyDeclared id)
              | none =>
                .ok (s5, APPEND_INSN insns1 ⟨.setlocal, (next_idx locals : Int)⟩,
                     (id, next_idx locals) :: locals)
      | (false, s2) =>
        match match_token s2 (("if").toList) with
        | (true, s3) =>
          match parse_expr s3 insns locals with
          | .error e => .error e
          | .ok (s4, insns1) =>
            match expect_token s4 (("then").toList) with
            | .error e => .error e
            | .ok s5 =>
              match parse_go fuel false s5 (APPEND_INSN insns1 ⟨.ifnot, 0⟩) locals with
              | .error e => .error e
              | .ok (s6, insns2, locals1) =>
                .ok (s6, patch_imm insns2 insns1.length
                       ((insns2.length : Int) - (insns1.length : Int) - 1), locals1)
        | (false, s3) =>
          match match_token s3 (("begin").toList) with
          | (true, s4) => parse_go fuel true s4 insns locals
          | (false, s4) =>
            match match_token s4 (("print").toList) with
            | (true, s5) =>
              match parse_expr s5 insns locals with
              | .error e => .error e
              | .ok (s6, insns1) => .ok (s6, APPEND_INSN insns1 ⟨.print, 0⟩, locals)
            | (false, s5) =>
              match match_token s5 (("assert").toList) with
              | (true, s6) =>
                match parse_expr s6 insns locals with
                | .error e => .error e
                | .ok (s7, insns1) =>
                  .ok (s7, APPEND_INSN (APPEND_INSN insns1 ⟨.if_, 1⟩) ⟨.error, 0⟩, locals)
              | (false, _) => .error .invalidStmt

/-- Parse a statement (parse_stmt). -/
def parse_stmt (fuel : Nat) (s : List Char) (insns : List Instr) (locals : Locals) :
    Except PErr (List Char × List Instr × Locals) :=
  parse_go fuel false s insns locals

/-- Loop of parse_file: parse statements until the cursor reaches the end
of the input. -/
def parse_file_go : Nat → List Char → List Instr → Locals → Except PErr (List Instr)
  | 0, _, _, _ => .error .outOfFuel
  | fuel+1, s, insns, locals =>
    match s with
    | [] => .ok insns
    | _ :: _ =>
      match parse_go fuel false s insns locals with
      | .error e => .error e
      | .ok (s1, insns1, locals1) => parse_file_go fuel s1 insns1 locals1

/-- Parse a whole source text (parse_file), starting from an empty program
and an empty chain of locals. -/
def parse_file (fuel : Nat) (src : List Char) : Except PErr (List Instr) :=
  parse_file_go fuel src [] []

/-- Interpreter state: operand stack of temporaries (top first), local
variable writes (most recent first; the C locals array is uninitialised
until written, and a read of a never written slot, undefined in C, is
modelled as 0), the read_int values still to be supplied, and the integers
printed so far. -/
structure VMState where
  stack : List Int
  vars : List (Nat × Int)
  input : List Int
  output : List Int
deriving DecidableEq

/-- Ways execution can leave the semantics of the C program: a program
counter read outside the instruction allocation, a pop from an empty stack
(the C size_t index wraps around and reads out of bounds), or a push onto a
full stack (the C code writes past the end of the array).  None of these is
a diagnosed error in the C code; all are undefined behaviour, and none of
them prints a message or sets an exit status. -/
inductive StuckReason
  | oobPc
  | popEmpty
  | pushFull
deriving DecidableEq

/-- Result of dispatching one instruction. -/
inductive StepRes
  | next (pc : Int) (s : VMState)
  | halt (s : VMState)
  | rterror (s : VMState)
  | stuck (r : StuckReason) (pc : Int) (s : VMState)
deriving DecidableEq

/-- Fetch the instruction at pc.  The array handed to eval is the
MAX_INSTRS element allocation of parse_file, of which only the emitted
prefix was ever written; the remaining slots keep the zero fill of the
fresh 1 MiB allocation, and the all zero instruction is OP_EXIT (the enum
fixes OP_EXIT = 0) with immediate 0, so slots after the emitted prefix read
as EXIT.  Outside the allocation the read is out of bounds. -/
def fetch (prog : List Instr) (pc : Int) : Option Instr :=
  if 0 ≤ pc ∧ pc < (MAX_INSTRS : Int) then some (prog.getD pc.toNat ⟨.exit, 0⟩)
  else none

/-- Last written value of a local slot, 0 if never written. -/
def lookup_var : List (Nat × Int) → Nat → Int
  | [], _ => 0
  | v :: rest, idx => if v.1 = idx then v.2 else lookup_var rest idx

/-- Dispatch one instruction: one iteration of the eval loop.  POP pops the
rightmost argument first; IF and IFNOT add the immediate to the default
post fetch increment of one. -/
def step (prog : List Instr) (pc : Int) (s : VMState) : StepRes :=
  match fetch prog pc with
  | none => .stuck .oobPc pc s
  | some i =>
    match i.op with
    | .exit => .halt s
    | .error => .rterror s
    | .push =>
      if s.stack.length < MAX_STACK then .next (pc + 1) { s with stack := i.imm :: s.stack }
      else .stuck .pushFull pc s
    | .getlocal =>
      if s.stack.length < MAX_STACK then
        .next (pc + 1) { s with stack := lookup_var s.vars i.imm.toNat :: s.stack }
      else .stuck .pushFull pc s
    | .setlocal =>
      match s.stack with
      | [] => .stuck .popEmpty pc s
      | v :: rest => .next (pc + 1) { s with stack := rest, vars := (i.imm.toNat, v) :: s.vars }
    | .eq =>
      match s.stack with
      | a1 :: a0 :: rest => .next (pc + 1) { s with stack := (if a0 = a1 then 1 else 0) :: rest }
      | _ => .stuck .popEmpty pc s
    | .lt =>
      match s.stack with
      | a1 :: a0 :: rest => .next (pc + 1) { s with stack := (if a0 < a1 then 1 else 0) :: rest }
      | _ => .stuck .popEmpty pc s
    | .if_ =>
      match s.stack with
      | t :: rest => .next (if t = 0 then pc + 1 else pc + 1 + i.imm) { s with stack := rest }
      | [] => .stuck .popEmpty pc s
    | .ifnot =>
      match s.stack with
      | t :: rest => .next (if t = 0 then pc + 1 + i.imm else pc + 1) { s with stack := rest }
      | [] => .stuck .popEmpty pc s
    | .add =>
      match s.stack with
      | a1 :: a0 :: rest => .next (pc + 1) { s with stack := i64 (a0 + a1) :: rest }
      | _ => .stuck .popEmpty pc s
    | .sub =>
      match s.stack with
      | a1 :: a0 :: rest => .next (pc + 1) { s with stack := i64 (a0 - a1) :: rest }
      | _ => .stuck .popEmpty pc s
    | .readint =>
      if s.stack.length < MAX_STACK then
        match s.input with
        | [] => .next (pc + 1) { s with stack := 0 :: s.stack }
        | v :: rest => .next (pc + 1) { s with stack := i64 v :: s.stack, input := rest }
      else .stuck .pushFull pc s
    | .print =>
      match s.stack with
      | v :: rest => .next (pc + 1) { s with stack := rest, output := s.output ++ [v] }
      | [] => .stuck .popEmpty pc s

/-- Final outcome of a run; timeout is an artifact of the fuel bound and
means the machine was still running when the fuel ran out. -/
inductive Outcome
  | halt (s : VMState)
  | rterror (s : VMState)
  | stuck (r : StuckReason) (pc : Int) (s : VMState)
  | timeout (pc : Int) (s : VMState)
deriving DecidableEq

/-- Run the fetch dispatch advance loop (eval) for at most fuel steps. -/
def eval (prog : List Instr) : Nat → Int → VMState → Outcome
  | 0, pc, s => .timeout pc s
  | fuel+1, pc, s =>
    match step prog pc s with
    | .next pc1 s1 => eval prog fuel pc1 s1
    | .halt s1 => .halt s1
    | .rterror s1 => .rterror s1
    | .stuck r p q => .stuck r p q

/-- Whether an outcome is the fuel exhaustion artifact. -/
def Outcome.isTimeout : Outcome → Bool
  | .timeout _ _ => true
  | _ => false

/-- Fresh interpreter state at program start. -/
def init_state (input : List Int) : VMState := ⟨[], [], input, []⟩

/-- Result of one process invocation. -/
inductive MainRes
  | noop
  | parseFailed (e : PErr)
  | ran (o : Outcome)
deriving DecidableEq

/-- The main entry point: with argc = 2 (program name plus exactly one
positional argument) the named file is parsed and run; with any other
argument count nothing at all happens.  The fuel arguments bound the two
loops of the model. -/
def weebasic_main (argv : List String) (source : List Char) (input : List Int)
    (pfuel efuel : Nat) : MainRes :=
  if argv.length = 2 then
    match parse_file pfuel source with
    | .error e => .parseFailed e
    | .ok prog => .ran (eval prog efuel 0 (init_state input))
  else .noop

/-- Process exit status of each outcome: parse failures and the ERROR
instruction call exit(-1), everything else returns 0 from main.  The stuck
and timeout outcomes are artifacts of the model (undefined behaviour and
fuel exhaustion) and are mapped to 0 like a normal return. -/
def exit_code : MainRes → Int
  | .noop => 0
  | .parseFailed _ => -1
  | .ran (.rterror _) => -1
  | .ran _ => 0

/-- Shapes of code emitted by parse_atom. -/
inductive AtomCode : List Instr → Prop
  | readint : AtomCode [⟨.readint, 0⟩]
  | push (n : Int) : AtomCode [⟨.push, n⟩]
  | getlocal (i : Int) : AtomCode [⟨.getlocal, i⟩]

/-- Shapes of code emitted by parse_expr. -/
inductive ExprCode : List Instr → Prop
  | atom {a} : AtomCode a → ExprCode a
  | binAdd {a b} : AtomCode a → AtomCode b → ExprCode (a ++ b ++ [⟨.add, 0⟩])
  | binSub {a b} : AtomCode a → AtomCode b → ExprCode (a ++ b ++ [⟨.sub, 0⟩])
  | binEq {a b} : AtomCode a → AtomCode b → ExprCode (a ++ b ++ [⟨.eq, 0⟩])
  | binLt {a b} : AtomCode a → AtomCode b → ExprCode (a ++ b ++ [⟨.lt, 0⟩])

/-- Shapes of code emitted by parse_stmt for one statement, or for a
sequence of statements. -/
inductive StmtCode : List Instr → Prop
  | nil : StmtCode []
  | decl {e} (i : Int) : ExprCode e → StmtCode (e ++ [⟨.setlocal, i⟩])
  | ifstmt {e b} : ExprCode e → StmtCode b →
      StmtCode (e ++ [⟨.ifnot, (b.length : Int)⟩] ++ b)
  | printstmt {e} : ExprCode e → StmtCode (e ++ [⟨.print, 0⟩])
  | assertstmt {e} : ExprCode e → StmtCode (e ++ [⟨.if_, 1⟩, ⟨.error, 0⟩])
  | seq {a b} : StmtCode a → StmtCode b → StmtCode (a ++ b)

/-- Every IF and IFNOT immediate in the program is nonnegative. -/
def jumpsNonneg (prog : List Instr) : Prop :=
  ∀ i ∈ prog, (i.op = .if_ ∨ i.op = .ifnot) → 0 ≤ i.imm

/-- The canonical shape of the parse time chain of locals: slot indices
count down from length - 1 to 0, so the head always carries the maximum. -/
def chainWF : Locals → Bool
  | [] => true
  | v :: rest => (v.2 == rest.length) && chainWF rest

/-- Execution chains: the machine steps from the first configuration to the
second through states that all satisfy P. -/
inductive StepsP (prog : List Instr) (P : VMState → Prop) :
    Int → VMState → Int → VMState → Prop
  | refl (pc : Int) (s : VMState) : P s → StepsP prog P pc s pc s
  | tail {pc s pc1 s1 pc2 s2} : P s → step prog pc s = .next pc1 s1 →
      StepsP prog P pc1 s1 pc2 s2 → StepsP prog P pc s pc2 s2

/-- Reachability in the step relation. -/
abbrev Steps (prog : List Instr) : Int → VMState → Int → VMState → Prop :=
  StepsP prog (fun _ => True)

/-- Eating whitespace twice is the same as eating it once. -/
theorem eat_ws_idem (s : List Char) : eat_ws (eat_ws s) = eat_ws s := by
  induction s with
  | nil => rfl
  | cons c rest ih =>
    by_cases h : is_ws c = true
    · simpa [eat_ws, List.dropWhile_cons, h] using ih
    · simp [eat_ws, List.dropWhile_cons, h]

/-- Whitespace eating does nothing when the head is not whitespace. -/
theorem eat_ws_cons_of_not_ws {c : Char} (t : List Char) (h : is_ws c = false) :
    eat_ws (c :: t) = c :: t := by
  simp [eat_ws, List.dropWhile_cons, h]

/-- Characterisation of match_token on success. -/
theorem match_token_pos {s tok : List Char} (h : tok.isPrefixOf (eat_ws s) = true) :
    match_token s tok = (true, eat_ws ((eat_ws s).drop tok.length)) := by
  simp [match_token, h]

/-- Characterisation of match_token on failure. -/
theorem match_token_neg {s tok : List Char} (h : tok.isPrefixOf (eat_ws s) = false) :
    match_token s tok = (false, eat_ws s) := by
  simp [match_token, h]

/-- Overwriting the element sitting right after a prefix of a list. -/
theorem set_after_prefix {α : Type} (x : List α) (a : α) (y : List α) (v : α) :
    (x ++ a :: y).set x.length v = x ++ v :: y := by
  induction x with
  | nil => rfl
  | cons b xs ih => simp [List.set, ih]

/-- Reading the element sitting right after a prefix of a list. -/
theorem getD_after_prefix {α : Type} (x : List α) (a : α) (y : List α) (d : α) :
    (x ++ a :: y).getD x.length d = a := by
  induction x with
  | nil => rfl
  | cons b xs ih => simpa using ih

/-- C4 (amended): when match-literal fails it consumes exactly the leading
whitespace and no token characters, so a cursor already at non whitespace
is left unmoved; when it matches, it consumes the token and the
surrounding whitespace and returns success. -/
theorem match_token_cursor (s tok : List Char) :
    ((match_token s tok).1 = false → (match_token s tok).2 = eat_ws s) ∧
    ((match_token s tok).1 = true → tok.isPrefixOf (eat_ws s) = true ∧
      (match_token s tok).2 = eat_ws ((eat_ws s).drop tok.length)) := by
  by_cases h : tok.isPrefixOf (eat_ws s) = true
  · rw [match_token_pos h]
    exact ⟨fun hf => (nomatch hf), fun _ => ⟨h, rfl⟩⟩
  · rw [match_token_neg (Bool.eq_false_iff.mpr h)]
    exact ⟨fun _ => rfl, fun ht => (nomatch ht)⟩

/-- C4 witness: a concrete failed match, the cursor ends where the leading
whitespace ended. -/
theorem match_token_cursor_witness :
    (match_token ([' ', 'x']) (['y'])).1 = false ∧
    (match_token ([' ', 'x']) (['y'])).2 = eat_ws ([' ', 'x']) :=
  ⟨by decide, (match_token_cursor ([' ', 'x']) (['y'])).1 (by decide)⟩

/-- C4 counterexample: on input consisting of a space and then the letter x,
a failed match for the token y does not leave the cursor where it was: the
space has been consumed. -/
theorem match_token_failure_moves_cursor :
    (match_token ([' ', 'x']) (['y'])).1 = false ∧
    (match_token ([' ', 'x']) (['y'])).2 ≠ [' ', 'x'] := by decide

/-- C2: running the program counter past the last emitted instruction,
anywhere inside the instruction allocation, halts normally in the current
state, exactly as executing an EXIT instruction does. -/
theorem past_end_is_exit (prog : List Instr) (fuel : Nat) (pc : Int) (s : VMState)
    (h0 : 0 ≤ pc) (h1 : prog.length ≤ pc.toNat) (h2 : pc < (MAX_INSTRS : Int)) :
    eval prog (fuel + 1) pc s = .halt s ∧
    eval prog (fuel + 1) pc s = eval ([⟨.exit, 0⟩]) (fuel + 1) 0 s := by
  have hf : fetch prog pc = some ⟨.exit, 0⟩ := by
    rw [fetch, if_pos ⟨h0, h2⟩, List.getD_eq_default _ _ h1]
  have hs : step prog pc s = .halt s := by
    rw [step, hf]
  have h1 : eval prog (fuel + 1) pc s = .halt s := by
    rw [eval, hs]
  have h2 : eval ([⟨.exit, 0⟩] : List Instr) (fuel + 1) 0 s = .halt s := by
    have : step ([⟨.exit, 0⟩] : List Instr) 0 s = .halt s := rfl
    rw [eval, this]
  exact ⟨h1, h1.trans h2.symm⟩

/-- C2 witness: a one instruction program, entered at counter 1. -/
theorem past_end_is_exit_witness :
    eval ([⟨.push, 1⟩]) 3 1 (init_state []) = .halt (init_state []) ∧
    eval ([⟨.push, 1⟩]) 3 1 (init_state []) = eval ([⟨.exit, 0⟩]) 3 0 (init_state []) :=
  past_end_is_exit ([⟨.push, 1⟩]) 2 1 (init_state []) (by decide) (by decide) (by decide)

/-- C8: with an argument count other than two (program name plus one
positional argument) the process parses nothing, runs nothing, produces no
output and exits with status 0; with exactly one positional argument it
parses the file and runs the result. -/
theorem main_arg_count (argv : List String) (source : List Char) (input : List Int)
    (pfuel efuel : Nat) :
    (argv.length ≠ 2 → weebasic_main argv source input pfuel efuel = .noop ∧
      exit_code (weebasic_main argv source input pfuel efuel) = 0) ∧
    (argv.length = 2 → ∀ prog, parse_file pfuel source = .ok prog →
      weebasic_main argv source input pfuel efuel =
        .ran (eval prog efuel 0 (init_state input))) := by
  constructor
  · intro h
    rw [weebasic_main, if_neg h]
    exact ⟨rfl, rfl⟩
  · intro h prog hp
    rw [weebasic_main, if_pos h, hp]

/-- C8 witness: zero arguments beyond the program name. -/
theorem main_arg_count_witness :
    weebasic_main ([("w" : String)]) [] [] 5 5 = .noop ∧
    exit_code (weebasic_main ([("w" : String)]) [] [] 5 5) = 0 :=
  (main_arg_count ([("w" : String)]) [] [] 5 5).1 (by decide)

/-- C9: keyword matching needs no word boundary: whenever the token is a
character prefix of the whitespace stripped input, match-literal succeeds,
even when identifier characters follow immediately; consequently the text
letx = 5 parses as the declaration of x with initial value 5. -/
theorem keyword_no_boundary :
    (∀ s tok : List Char, tok.isPrefixOf (eat_ws s) = true →
      (match_token s tok).1 = true) ∧
    parse_stmt 9 (("letx = 5").toList) [] [] =
      .ok ([], [⟨.push, 5⟩, ⟨.setlocal, 0⟩], [(("x" : String), 0)]) := by
  constructor
  · intro s tok h
    rw [match_token_pos h]
  · rfl

/-- C9 witness: the keyword let matches at the front of letx. -/
theorem keyword_no_boundary_witness :
    (match_token (("letx").toList) (("let").toList)).1 = true :=
  keyword_no_boundary.1 (("letx").toList) (("let").toList) (by decide)

/-- Helper for C1: the identifier loop fails fatally once sixty three
characters have accumulated, whatever follows. -/
theorem parse_ident_go_long : ∀ (k : Nat) (acc rest : List Char), acc.length + k = 63 →
    parse_ident_go (List.replicate k 'a' ++ rest) acc = .error .identTooLong := by
  intro k
  induction k with
  | zero =>
    intro acc rest h
    simp at h
    cases rest with
    | nil => simp [parse_ident_go, MAX_IDENT_LEN, h]
    | cons c t => simp [parse_ident_go, MAX_IDENT_LEN, h]
  | succ n ih =>
    intro acc rest h
    have hlt : ¬ (MAX_IDENT_LEN - 1 ≤ acc.length) := by
      simp [MAX_IDENT_LEN]
      omega
    simp only [List.replicate_succ, List.cons_append, parse_ident_go, if_neg hlt]
    rw [if_pos (by decide : is_ident_char 'a' = true)]
    apply ih
    simp
    omega

/-- C1 (amended): among the fixed capacity stores only the identifier
buffer is capacity checked: an identifier reaching MAX_IDENT_LEN - 1
characters is an immediate fatal parse error.  A push onto an operand
stack already holding MAX_STACK values, by contrast, performs no check:
the C code writes past the end of the array, modelled here as the stuck
outcome for an out of bounds store, not as a diagnosed fatal error. -/
theorem capacity_check_asymmetry (rest : List Char) (prog : List Instr) (pc : Int)
    (s : VMState) (i : Instr) (hfetch : fetch prog pc = some i) (hop : i.op = .push)
    (hfull : MAX_STACK ≤ s.stack.length) :
    parse_ident (List.replicate 63 'a' ++ rest) = .error .identTooLong ∧
    step prog pc s = .stuck .pushFull pc s := by
  constructor
  · exact parse_ident_go_long 63 [] rest (by simp)
  · cases i with
    | mk o m =>
      cases hop
      simp [step, hfetch, not_lt.mpr hfull]

/-- C1 witness: a 63 character identifier is rejected, and a push onto a
full stack goes out of bounds without a fatal error. -/
theorem capacity_check_asymmetry_witness :
    parse_ident (List.replicate 63 'a' ++ []) = .error .identTooLong ∧
    step ([⟨.push, 7⟩]) 0 ⟨List.replicate 32 0, [], [], []⟩ =
      .stuck .pushFull 0 ⟨List.replicate 32 0, [], [], []⟩ :=
  capacity_check_asymmetry [] ([⟨.push, 7⟩]) 0 ⟨List.replicate 32 0, [], [], []⟩
    ⟨.push, 7⟩ (by decide) rfl (by decide)

/-- C1 counterexample: executing a PUSH with the operand stack at its
MAX_STACK capacity does not terminate with a fatal error as the claim
states for every store: the C code performs an unchecked out of bounds
write (the stuck outcome), and in particular does not reach the fatal
error exit that the ERROR instruction produces. -/
theorem push_at_capacity_not_fatal :
    step ([⟨.push, 7⟩]) 0 ⟨List.replicate 32 0, [], [], []⟩ =
      .stuck .pushFull 0 ⟨List.replicate 32 0, [], [], []⟩ ∧
    ∀ t, step ([⟨.push, 7⟩]) 0 ⟨List.replicate 32 0, [], [], []⟩ ≠ .rterror t := by
  refine ⟨by decide, fun t h => ?_⟩
  rw [(by decide : step ([⟨.push, 7⟩]) 0 ⟨List.replicate 32 0, [], [], []⟩ =
    .stuck .pushFull 0 ⟨List.replicate 32 0, [], [], []⟩)] at h
  exact StepRes.noConfusion h

theorem parse_atom_shape {s : List Char} {insns : List Instr} {locals : Locals}
    {s1 : List Char} {insns1 : List Instr}
    (h : parse_atom s insns locals = .ok (s1, insns1)) :
    ∃ d, insns1 = insns ++ d ∧ AtomCode d := by
  unfold parse_atom at h
  repeat' split at h
  all_goals first
    | (simp only [Except.ok.injEq, Prod.mk.injEq] at h
       obtain ⟨h1, h2⟩ := h
       first
         | exact ⟨_, h2.symm, .readint⟩
         | exact ⟨_, h2.symm, .push _⟩
         | exact ⟨_, h2.symm, .getlocal _⟩)
    | simp at h

theorem parse_expr_shape {s : List Char} {insns : List Instr} {locals : Locals}
    {s1 : List Char} {insns1 : List Instr}
    (h : parse_expr s insns locals = .ok (s1, insns1)) :
    ∃ d, insns1 = insns ++ d ∧ ExprCode d := by
  unfold parse_expr at h
  split at h
  · simp at h
  · rename_i sA iA heqA
    obtain ⟨a, rfl, hA⟩ := parse_atom_shape heqA
    split at h
    · split at h
      · simp at h
      · rename_i sB iB heqB
        obtain ⟨b, rfl, hB⟩ := parse_atom_shape heqB
        simp only [Except.ok.injEq, Prod.mk.injEq] at h
        obtain ⟨h1, h2⟩ := h
        exact ⟨a ++ b ++ [⟨.add, 0⟩], by rw [← h2]; simp [APPEND_INSN], .binAdd hA hB⟩
    · split at h
      · split at h
        · simp at h
        · rename_i sB iB heqB
          obtain ⟨b, rfl, hB⟩ := parse_atom_shape heqB
          simp only [Except.ok.injEq, Prod.mk.injEq] at h
          obtain ⟨h1, h2⟩ := h
          exact ⟨a ++ b ++ [⟨.sub, 0⟩], by rw [← h2]; simp [APPEND_INSN], .binSub hA hB⟩
      · split at h
        · split at h
          · simp at h
          · rename_i sB iB heqB
            obtain ⟨b, rfl, hB⟩ := parse_atom_shape heqB
            simp only [Except.ok.injEq, Prod.mk.injEq] at h
            obtain ⟨h1, h2⟩ := h
            exact ⟨a ++ b ++ [⟨.eq, 0⟩], by rw [← h2]; simp [APPEND_INSN], .binEq hA hB⟩
        · split at h
          · split at h
            · simp at h
            · rename_i sB iB heqB
              obtain ⟨b, rfl, hB⟩ := parse_atom_shape heqB
              simp only [Except.ok.injEq, Prod.mk.injEq] at h
              obtain ⟨h1, h2⟩ := h
              exact ⟨a ++ b ++ [⟨.lt, 0⟩], by rw [← h2]; simp [APPEND_INSN], .binLt hA hB⟩
          · simp only [Except.ok.injEq, Prod.mk.injEq] at h
            obtain ⟨h1, h2⟩ := h
            exact ⟨a, h2.symm, .atom hA⟩

theorem chainWF_next_idx {locals : Locals} (h : chainWF locals = true) :
    next_idx locals = locals.length := by
  cases locals with
  | nil => rfl
  | cons v rest =>
    simp [chainWF] at h
    simp [next_idx, h.1]

theorem find_local_extend {locals : Locals} {id : String} {k : Nat}
    (hnone : find_local locals id = none) :
    ∀ id' r, find_local locals id' = some r → find_local ((id, k) :: locals) id' = some r := by
  intro id' r hr
  by_cases he : id = id'
  · subst he
    exact Option.noConfusion (hr.symm.trans hnone)
  · simp [find_local, he, hr]

theorem parse_go_master : ∀ (fuel : Nat) (mode : Bool) (s : List Char) (insns : List Instr)
    (locals : Locals) (s' : List Char) (insns' : List Instr) (locals' : Locals),
    parse_go fuel mode s insns locals = .ok (s', insns', locals') →
    (∃ d, insns' = insns ++ d ∧ StmtCode d) ∧
    locals.IsSuffix locals' ∧
    (chainWF locals = true → chainWF locals' = true) ∧
    (∀ id r, find_local locals id = some r → find_local locals' id = some r) := by
  intro fuel
  induction fuel with
  | zero =>
    intro mode s insns locals s' insns' locals' h
    simp [parse_go] at h
  | succ n ih =>
    intro mode s insns locals s' insns' locals' h
    cases mode
    · -- parse_stmt proper
      unfold parse_go at h
      split at h
      · -- comment
        simp only [Except.ok.injEq, Prod.mk.injEq] at h
        obtain ⟨hs, hi, hl⟩ := h
        subst hi
        subst hl
        exact ⟨⟨[], by simp, .nil⟩, List.suffix_refl _, fun hw => hw, fun id r hr => hr⟩
      · split at h
        · -- let
          split at h
          · simp at h
          · rename_i id s3 heqId
            split at h
            · simp at h
            · rename_i s4 heqTok
              split at h
              · simp at h
              · rename_i s5 insns1 heqE
                obtain ⟨e, rfl, hE⟩ := parse_expr_shape heqE
                split at h
                · simp at h
                · rename_i heqFind
                  simp only [Except.ok.injEq, Prod.mk.injEq] at h
                  obtain ⟨hs, hi, hl⟩ := h
                  subst hi
                  subst hl
                  refine ⟨⟨e ++ [⟨.setlocal, (next_idx locals : Int)⟩], by simp [APPEND_INSN], .decl _ hE⟩, ?_, ?_, ?_⟩
                  · exact List.suffix_cons _ _
                  · intro hw
                    simp [chainWF, chainWF_next_idx hw, hw]
                  · exact find_local_extend heqFind
        · split at h
          · -- if
            split at h
            · simp at h
            · rename_i s4 insns1 heqE
              obtain ⟨e, rfl, hE⟩ := parse_expr_shape heqE
              split at h
              · simp at h
              · rename_i s5 heqTok
                split at h
                · simp at h
                · rename_i s6 insns2 locals1 heqB
                  obtain ⟨⟨b, hb, hB⟩, hsuf, hwf, hfind⟩ := ih false s5 _ locals s6 insns2 locals1 heqB
                  simp only [Except.ok.injEq, Prod.mk.injEq] at h
                  obtain ⟨hs, hi, hl⟩ := h
                  subst hi
                  subst hl
                  have h2 : insns2 = (insns ++ e) ++ ⟨.ifnot, 0⟩ :: b := by
                    rw [hb]
                    simp [APPEND_INSN]
                  have himm : ((insns2.length : Int) - ((insns ++ e).length : Int) - 1) = (b.length : Int) := by
                    rw [h2]
                    simp [List.length_append]
                  have hpatch : patch_imm insns2 (insns ++ e).length
                      ((insns2.length : Int) - ((insns ++ e).length : Int) - 1)
                      = (insns ++ e) ++ ⟨.ifnot, (b.length : Int)⟩ :: b := by
                    rw [himm, h2, patch_imm, getD_after_prefix, set_after_prefix]
                  refine ⟨⟨e ++ [⟨.ifnot, (b.length : Int)⟩] ++ b, by rw [hpatch]; simp, .ifstmt hE hB⟩, hsuf, hwf, hfind⟩
          · split at h
            · -- begin
              exact ih true _ insns locals s' insns' locals' h
            · split at h
              · -- print
                split at h
                · simp at h
                · rename_i s6 insns1 heqE
                  obtain ⟨e, rfl, hE⟩ := parse_expr_shape heqE
                  simp only [Except.ok.injEq, Prod.mk.injEq] at h
                  obtain ⟨hs, hi, hl⟩ := h
                  subst hi
                  subst hl
                  exact ⟨⟨e ++ [⟨.print, 0⟩], by simp [APPEND_INSN], .printstmt hE⟩,
                    List.suffix_refl _, fun hw => hw, fun id r hr => hr⟩
              · split at h
                · -- assert
                  split at h
                  · simp at h
                  · rename_i s7 insns1 heqE
                    obtain ⟨e, rfl, hE⟩ := parse_expr_shape heqE
                    simp only [Except.ok.injEq, Prod.mk.injEq] at h
                    obtain ⟨hs, hi, hl⟩ := h
                    subst hi
                    subst hl
                    exact ⟨⟨e ++ [⟨.if_, 1⟩, ⟨.error, 0⟩], by simp [APPEND_INSN], .assertstmt hE⟩,
                      List.suffix_refl _, fun hw => hw, fun id r hr => hr⟩
                · simp at h
    · -- begin items loop
      unfold parse_go at h
      split at h
      · -- end matched
        simp only [Except.ok.injEq, Prod.mk.injEq] at h
        obtain ⟨hs, hi, hl⟩ := h
        subst hi
        subst hl
        exact ⟨⟨[], by simp, .nil⟩, List.suffix_refl _, fun hw => hw, fun id r hr => hr⟩
      · split at h
        · simp at h
        · rename_i s2 insns1 locals1 heqS
          obtain ⟨⟨d1, rfl, hD1⟩, hsuf1, hwf1, hfind1⟩ := ih false _ insns locals s2 insns1 locals1 heqS
          obtain ⟨⟨d2, rfl, hD2⟩, hsuf2, hwf2, hfind2⟩ := ih true s2 _ locals1 s' insns' locals' h
          exact ⟨⟨d1 ++ d2, by simp, .seq hD1 hD2⟩, hsuf1.trans hsuf2,
            fun hw => hwf2 (hwf1 hw), fun id r hr => hfind2 _ _ (hfind1 _ _ hr)⟩

theorem parse_file_go_shape : ∀ (fuel : Nat) (s : List Char) (insns : List Instr)
    (locals : Locals) (prog : List Instr),
    parse_file_go fuel s insns locals = .ok prog →
    ∃ d, prog = insns ++ d ∧ StmtCode d := by
  intro fuel
  induction fuel with
  | zero =>
    intro s insns locals prog h
    simp [parse_file_go] at h
  | succ n ih =>
    intro s insns locals prog h
    unfold parse_file_go at h
    split at h
    · simp only [Except.ok.injEq] at h
      subst h
      exact ⟨[], by simp, .nil⟩
    · split at h
      · simp at h
      · rename_i s1 insns1 locals1 heqS
        obtain ⟨⟨d1, rfl, hD1⟩, h2, h3, h4⟩ :=
          parse_go_master n false _ insns locals s1 insns1 locals1 heqS
        obtain ⟨d2, rfl, hD2⟩ := ih s1 _ locals1 prog h
        exact ⟨d1 ++ d2, by simp, .seq hD1 hD2⟩

theorem parse_file_shape {fuel : Nat} {src : List Char} {prog : List Instr}
    (h : parse_file fuel src = .ok prog) : StmtCode prog := by
  obtain ⟨d, hd, hD⟩ := parse_file_go_shape fuel src [] [] prog h
  simpa [hd] using hD

theorem jumpsNonneg_append {x y : List Instr} (hx : jumpsNonneg x) (hy : jumpsNonneg y) :
    jumpsNonneg (x ++ y) := by
  intro i hi hop
  rcases List.mem_append.mp hi with hm | hm
  · exact hx i hm hop
  · exact hy i hm hop

theorem atom_jumpsNonneg {a : List Instr} (h : AtomCode a) : jumpsNonneg a := by
  cases h <;>
    (intro i hi hop
     simp at hi
     subst hi
     rcases hop with hop | hop <;> simp at hop)

theorem expr_jumpsNonneg {e : List Instr} (h : ExprCode e) : jumpsNonneg e := by
  cases h with
  | atom ha => exact atom_jumpsNonneg ha
  | binAdd ha hb =>
    refine jumpsNonneg_append (jumpsNonneg_append (atom_jumpsNonneg ha) (atom_jumpsNonneg hb)) ?_
    intro i hi hop
    simp at hi
    subst hi
    rcases hop with hop | hop <;> simp at hop
  | binSub ha hb =>
    refine jumpsNonneg_append (jumpsNonneg_append (atom_jumpsNonneg ha) (atom_jumpsNonneg hb)) ?_
    intro i hi hop
    simp at hi
    subst hi
    rcases hop with hop | hop <;> simp at hop
  | binEq ha hb =>
    refine jumpsNonneg_append (jumpsNonneg_append (atom_jumpsNonneg ha) (atom_jumpsNonneg hb)) ?_
    intro i hi hop
    simp at hi
    subst hi
    rcases hop with hop | hop <;> simp at hop
  | binLt ha hb =>
    refine jumpsNonneg_append (jumpsNonneg_append (atom_jumpsNonneg ha) (atom_jumpsNonneg hb)) ?_
    intro i hi hop
    simp at hi
    subst hi
    rcases hop with hop | hop <;> simp at hop

theorem stmt_jumpsNonneg {c : List Instr} (h : StmtCode c) : jumpsNonneg c := by
  induction h with
  | nil => intro i hi hop; simp at hi
  | decl k he =>
    refine jumpsNonneg_append (expr_jumpsNonneg he) ?_
    intro i hi hop
    simp at hi
    subst hi
    rcases hop with hop | hop <;> simp at hop
  | ifstmt he hb ihb =>
    refine jumpsNonneg_append (jumpsNonneg_append (expr_jumpsNonneg he) ?_) ihb
    intro i hi hop
    simp at hi
    subst hi
    simp
  | printstmt he =>
    refine jumpsNonneg_append (expr_jumpsNonneg he) ?_
    intro i hi hop
    simp at hi
    subst hi
    rcases hop with hop | hop <;> simp at hop
  | assertstmt he =>
    refine jumpsNonneg_append (expr_jumpsNonneg he) ?_
    intro i hi hop
    simp at hi
    rcases hi with hi | hi
    · subst hi
      simp
    · subst hi
      rcases hop with hop | hop <;> simp at hop
  | seq ha hb iha ihb => exact jumpsNonneg_append iha ihb

theorem getD_mem_or {l : List Instr} {n : Nat} {d : Instr} : l.getD n d ∈ l ∨ l.getD n d = d := by
  by_cases h : n < l.length
  · left
    rw [List.getD_eq_getElem l d h]
    exact List.getElem_mem h
  · right
    exact List.getD_eq_default l d (le_of_not_lt h)

theorem fetch_eq_getD {prog : List Instr} {pc : Int} {i : Instr}
    (h : fetch prog pc = some i) :
    0 ≤ pc ∧ pc < (MAX_INSTRS : Int) ∧ i = prog.getD pc.toNat ⟨.exit, 0⟩ := by
  unfold fetch at h
  split at h
  · rename_i hc
    simp only [Option.some.injEq] at h
    exact ⟨hc.1, hc.2, h.symm⟩
  · simp at h

theorem step_next_inbounds {prog : List Instr} {pc pc1 : Int} {s s1 : VMState}
    (h : step prog pc s = .next pc1 s1) : 0 ≤ pc ∧ pc.toNat < prog.length := by
  unfold step at h
  split at h
  · simp at h
  · rename_i i hfetch
    obtain ⟨h0, hmax, hi⟩ := fetch_eq_getD hfetch
    refine ⟨h0, ?_⟩
    by_cases hlt : pc.toNat < prog.length
    · exact hlt
    · exfalso
      rw [List.getD_eq_default _ _ (le_of_not_lt hlt)] at hi
      subst hi
      simp at h

theorem step_next_progress {prog : List Instr} {pc pc1 : Int} {s s1 : VMState}
    (hj : jumpsNonneg prog) (h : step prog pc s = .next pc1 s1) : pc + 1 ≤ pc1 := by
  unfold step at h
  split at h
  · simp at h
  · rename_i i hfetch
    obtain ⟨h0, hmax, hi⟩ := fetch_eq_getD hfetch
    have himm : (i.op = .if_ ∨ i.op = .ifnot) → 0 ≤ i.imm := by
      intro hop
      rcases getD_mem_or (l := prog) (n := pc.toNat) (d := ⟨.exit, 0⟩) with hm | hd
      · rw [hi]
        exact hj _ hm (hi ▸ hop)
      · rw [hi, hd]
    split at h
    · simp at h
    · simp at h
    · split at h
      · simp only [StepRes.next.injEq] at h
        omega
      · simp at h
    · split at h
      · simp only [StepRes.next.injEq] at h
        omega
      · simp at h
    · split at h
      · simp at h
      · simp only [StepRes.next.injEq] at h
        omega
    · split at h
      · simp only [StepRes.next.injEq] at h
        omega
      · simp at h
    · split at h
      · simp only [StepRes.next.injEq] at h
        omega
      · simp at h
    · rename_i hop
      have hm0 : 0 ≤ i.imm := himm (Or.inl hop)
      split at h
      · simp only [StepRes.next.injEq] at h
        obtain ⟨h1, h2⟩ := h
        split at h1 <;> omega
      · simp at h
    · rename_i hop
      have hm0 : 0 ≤ i.imm := himm (Or.inr hop)
      split at h
      · simp only [StepRes.next.injEq] at h
        obtain ⟨h1, h2⟩ := h
        split at h1 <;> omega
      · simp at h
    · split at h
      · simp only [StepRes.next.injEq] at h
        omega
      · simp at h
    · split at h
      · simp only [StepRes.next.injEq] at h
        omega
      · simp at h
    · split at h
      · split at h <;>
          (simp only [StepRes.next.injEq] at h
           omega)
      · simp at h
    · split at h
      · simp only [StepRes.next.injEq] at h
        omega
      · simp at h

theorem eval_no_timeout {prog : List Instr} (hj : jumpsNonneg prog) :
    ∀ (fuel : Nat) (pc : Int) (s : VMState), 0 ≤ pc → 1 ≤ fuel →
    (prog.length : Int) + 1 ≤ pc + fuel → (eval prog fuel pc s).isTimeout = false := by
  intro fuel
  induction fuel with
  | zero =>
    intro pc s h0 h1 h2
    omega
  | succ n ih =>
    intro pc s h0 h1 h2
    rcases hstep : step prog pc s with ⟨pc1, s1⟩ | ⟨s1⟩ | ⟨s1⟩ | ⟨r, p, q⟩ <;>
      rw [eval, hstep]
    · obtain ⟨hp0, hlt⟩ := step_next_inbounds hstep
      have hprg := step_next_progress hj hstep
      have hcast : (pc.toNat : Int) = pc := Int.toNat_of_nonneg h0
      exact ih pc1 s1 (by omega) (by omega) (by omega)
    · rfl
    · rfl
    · rfl

/-- Execution chains compose. -/
theorem StepsP.trans {prog : List Instr} {P : VMState → Prop} {a b c : Int}
    {sa sb sc : VMState} (h1 : StepsP prog P a sa b sb) (h2 : StepsP prog P b sb c sc) :
    StepsP prog P a sa c sc := by
  induction h1 with
  | refl pc s hp => exact h2
  | tail hp hs h ih => exact .tail hp hs (ih h2)

/-- A chain invariant can be weakened. -/
theorem StepsP.mono {prog : List Instr} {P Q : VMState → Prop} {a b : Int}
    {sa sb : VMState} (hPQ : ∀ t, P t → Q t) (h : StepsP prog P a sa b sb) :
    StepsP prog Q a sa b sb := by
  induction h with
  | refl pc s hp => exact .refl pc s (hPQ _ hp)
  | tail hp hs h ih => exact .tail (hPQ _ hp) hs ih

/-- Fetching at the first position after a known prefix of the program. -/
theorem fetch_at {prog pre rest : List Instr} {x : Instr}
    (hprog : prog = pre ++ x :: rest) (hlen : prog.length ≤ MAX_INSTRS) :
    fetch prog ((pre.length : Int)) = some x := by
  have h0 : (0 : Int) ≤ (pre.length : Int) := Int.natCast_nonneg _
  have hlt : pre.length < prog.length := by
    rw [hprog]
    simp [List.length_append]
  have h2 : ((pre.length : Int)) < (MAX_INSTRS : Int) := by exact_mod_cast lt_of_lt_of_le hlt hlen
  rw [fetch, if_pos ⟨h0, h2⟩]
  rw [Int.toNat_natCast, hprog, getD_after_prefix]

/-- Dispatch of PUSH with room on the stack. -/
theorem step_push {prog : List Instr} {pc : Int} {n : Int} (s : VMState)
    (hf : fetch prog pc = some ⟨.push, n⟩) (hcap : s.stack.length < MAX_STACK) :
    step prog pc s = .next (pc + 1) { s with stack := n :: s.stack } := by
  unfold step
  rw [hf]
  simp [hcap]

/-- Dispatch of GETLOCAL with room on the stack. -/
theorem step_getlocal {prog : List Instr} {pc : Int} {i : Int} (s : VMState)
    (hf : fetch prog pc = some ⟨.getlocal, i⟩) (hcap : s.stack.length < MAX_STACK) :
    step prog pc s = .next (pc + 1) { s with stack := lookup_var s.vars i.toNat :: s.stack } := by
  unfold step
  rw [hf]
  simp [hcap]

/-- Dispatch of READINT at end of input: the parsed value is 0. -/
theorem step_readint_nil {prog : List Instr} {pc : Int} {m : Int} (s : VMState)
    (hf : fetch prog pc = some ⟨.readint, m⟩) (hcap : s.stack.length < MAX_STACK)
    (hinp : s.input = []) :
    step prog pc s = .next (pc + 1) { s with stack := 0 :: s.stack } := by
  unfold step
  rw [hf]
  simp [hcap, hinp]

/-- Dispatch of READINT with a pending input value. -/
theorem step_readint_cons {prog : List Instr} {pc : Int} {m v : Int} {rest : List Int}
    (s : VMState) (hf : fetch prog pc = some ⟨.readint, m⟩) (hcap : s.stack.length < MAX_STACK)
    (hinp : s.input = v :: rest) :
    step prog pc s = .next (pc + 1) { s with stack := i64 v :: s.stack, input := rest } := by
  unfold step
  rw [hf]
  simp [hcap, hinp]

/-- Dispatch of SETLOCAL with a nonempty stack. -/
theorem step_setlocal {prog : List Instr} {pc : Int} {i v : Int} {rest : List Int}
    (s : VMState) (hf : fetch prog pc = some ⟨.setlocal, i⟩) (hstk : s.stack = v :: rest) :
    step prog pc s = .next (pc + 1) { s with stack := rest, vars := (i.toNat, v) :: s.vars } := by
  unfold step
  rw [hf]
  simp [hstk]

/-- Dispatch of PRINT with a nonempty stack. -/
theorem step_print {prog : List Instr} {pc : Int} {m v : Int} {rest : List Int}
    (s : VMState) (hf : fetch prog pc = some ⟨.print, m⟩) (hstk : s.stack = v :: rest) :
    step prog pc s = .next (pc + 1) { s with stack := rest, output := s.output ++ [v] } := by
  unfold step
  rw [hf]
  simp [hstk]

/-- Dispatch of IF with a nonempty stack. -/
theorem step_if {prog : List Instr} {pc : Int} {m t : Int} {rest : List Int}
    (s : VMState) (hf : fetch prog pc = some ⟨.if_, m⟩) (hstk : s.stack = t :: rest) :
    step prog pc s = .next (if t = 0 then pc + 1 else pc + 1 + m) { s with stack := rest } := by
  unfold step
  rw [hf]
  simp [hstk]

/-- Dispatch of IFNOT with a nonempty stack. -/
theorem step_ifnot {prog : List Instr} {pc : Int} {m t : Int} {rest : List Int}
    (s : VMState) (hf : fetch prog pc = some ⟨.ifnot, m⟩) (hstk : s.stack = t :: rest) :
    step prog pc s = .next (if t = 0 then pc + 1 + m else pc + 1) { s with stack := rest } := by
  unfold step
  rw [hf]
  simp [hstk]

/-- Dispatch of ADD with two operands on the stack. -/
theorem step_add {prog : List Instr} {pc : Int} {m v1 v2 : Int} {rest : List Int}
    (s : VMState) (hf : fetch prog pc = some ⟨.add, m⟩) (hstk : s.stack = v2 :: v1 :: rest) :
    step prog pc s = .next (pc + 1) { s with stack := i64 (v1 + v2) :: rest } := by
  unfold step
  rw [hf]
  simp [hstk]

/-- Dispatch of SUB with two operands on the stack. -/
theorem step_sub {prog : List Instr} {pc : Int} {m v1 v2 : Int} {rest : List Int}
    (s : VMState) (hf : fetch prog pc = some ⟨.sub, m⟩) (hstk : s.stack = v2 :: v1 :: rest) :
    step prog pc s = .next (pc + 1) { s with stack := i64 (v1 - v2) :: rest } := by
  unfold step
  rw [hf]
  simp [hstk]

/-- Dispatch of EQ with two operands on the stack. -/
theorem step_eq_op {prog : List Instr} {pc : Int} {m v1 v2 : Int} {rest : List Int}
    (s : VMState) (hf : fetch prog pc = some ⟨.eq, m⟩) (hstk : s.stack = v2 :: v1 :: rest) :
    step prog pc s = .next (pc + 1) { s with stack := (if v1 = v2 then 1 else 0) :: rest } := by
  unfold step
  rw [hf]
  simp [hstk]

/-- Dispatch of LT with two operands on the stack. -/
theorem step_lt_op {prog : List Instr} {pc : Int} {m v1 v2 : Int} {rest : List Int}
    (s : VMState) (hf : fetch prog pc = some ⟨.lt, m⟩) (hstk : s.stack = v2 :: v1 :: rest) :
    step prog pc s = .next (pc + 1) { s with stack := (if v1 < v2 then 1 else 0) :: rest } := by
  unfold step
  rw [hf]
  simp [hstk]

/-- Dispatch of ERROR: the run ends as a run time error. -/
theorem step_error_op {prog : List Instr} {pc : Int} {m : Int} (s : VMState)
    (hf : fetch prog pc = some ⟨.error, m⟩) :
    step prog pc s = .rterror s := by
  unfold step
  rw [hf]

/-- Atom code is always a single instruction. -/
theorem atom_length {a : List Instr} (h : AtomCode a) : a.length = 1 := by
  cases h <;> rfl

/-- Executing the code of one atom pushes one value and may consume input. -/
theorem atom_exec {a : List Instr} (ha : AtomCode a) {prog pre post : List Instr}
    (hprog : prog = pre ++ a ++ post) (B : Nat) (s : VMState)
    (hlen : prog.length ≤ MAX_INSTRS)
    (hroom : s.stack.length + 1 ≤ B) (hcap : s.stack.length < MAX_STACK) :
    ∃ v inp2, StepsP prog (fun t => t.stack.length ≤ B)
      ((pre.length : Int)) s ((pre.length : Int) + 1)
      { s with stack := v :: s.stack, input := inp2 } := by
  have hPs : s.stack.length ≤ B := by omega
  cases ha with
  | push n =>
    have hf : fetch prog ((pre.length : Int)) = some ⟨.push, n⟩ :=
      fetch_at (show prog = pre ++ ⟨.push, n⟩ :: post by rw [hprog]; simp) hlen
    exact ⟨n, s.input, .tail hPs (step_push s hf hcap) (.refl _ _ (by simp; omega))⟩
  | getlocal i =>
    have hf : fetch prog ((pre.length : Int)) = some ⟨.getlocal, i⟩ :=
      fetch_at (show prog = pre ++ ⟨.getlocal, i⟩ :: post by rw [hprog]; simp) hlen
    exact ⟨_, s.input, .tail hPs (step_getlocal s hf hcap) (.refl _ _ (by simp; omega))⟩
  | readint =>
    have hf : fetch prog ((pre.length : Int)) = some ⟨.readint, 0⟩ :=
      fetch_at (show prog = pre ++ ⟨.readint, 0⟩ :: post by rw [hprog]; simp) hlen
    cases hinp : s.input with
    | nil =>
      exact ⟨0, s.input, .tail hPs (step_readint_nil s hf hcap hinp) (.refl _ _ (by simp; omega))⟩
    | cons v0 rest =>
      exact ⟨i64 v0, rest, .tail hPs (step_readint_cons s hf hcap hinp) (.refl _ _ (by simp; omega))⟩

/-- Executing two atoms and then one instruction that pops both results and pushes one value. -/
theorem two_atoms_then_binop {a b : List Instr} (ha : AtomCode a) (hb : AtomCode b)
    (x : Instr) {prog pre post : List Instr}
    (hprog : prog = pre ++ (a ++ b ++ [x]) ++ post) (B : Nat) (s : VMState)
    (hlen : prog.length ≤ MAX_INSTRS) (hroom : s.stack.length + 2 ≤ B)
    (hcap : s.stack.length + 2 ≤ MAX_STACK)
    (hbin : ∀ (t : VMState) (v2 v1 : Int) (rest : List Int), t.stack = v2 :: v1 :: rest →
      ∀ pc, fetch prog pc = some x →
        ∃ w, step prog pc t = .next (pc + 1) { t with stack := w :: rest }) :
    ∃ v inp2, StepsP prog (fun t => t.stack.length ≤ B) ((pre.length : Int)) s
      ((pre.length : Int) + 3) { s with stack := v :: s.stack, input := inp2 } := by
  obtain ⟨v1, inp1, h1⟩ := atom_exec ha
    (show prog = pre ++ a ++ (b ++ [x] ++ post) by rw [hprog]; simp) B s hlen
    (by omega) (by omega)
  obtain ⟨v2, inp2, h2⟩ := atom_exec hb
    (show prog = (pre ++ a) ++ b ++ ([x] ++ post) by rw [hprog]; simp) B
    { s with stack := v1 :: s.stack, input := inp1 } hlen
    (by simp; omega) (by simp; omega)
  have hpos1 : (((pre ++ a).length : Nat) : Int) = (pre.length : Int) + 1 := by
    simp [List.length_append, atom_length ha]
  rw [hpos1] at h2
  have hfx : fetch prog ((pre.length : Int) + 2) = some x := by
    have hp2 : prog = (pre ++ a ++ b) ++ x :: post := by rw [hprog]; simp
    have hfa := fetch_at hp2 hlen
    have hc : (((pre ++ a ++ b).length : Nat) : Int) = (pre.length : Int) + 2 := by
      simp [List.length_append, atom_length ha, atom_length hb]
    rw [hc] at hfa
    exact hfa
  have hw := hbin { s with stack := v2 :: v1 :: s.stack, input := inp2 }
    v2 v1 s.stack rfl ((pre.length : Int) + 2) hfx
  obtain ⟨w, hstep⟩ := hw
  have hchain := h1.trans (h2.trans (.tail (by simp; omega) hstep (.refl _ _ (by simp; omega))))
  have hfin : (pre.length : Int) + 2 + 1 = (pre.length : Int) + 3 := by ring
  rw [hfin] at hchain
  exact ⟨w, inp2, hchain⟩

/-- Executing the code emitted for an expression pushes exactly one net value, with the stack depth never more than two above the starting depth. -/
theorem expr_exec {e : List Instr} (he : ExprCode e) {prog pre post : List Instr}
    (hprog : prog = pre ++ e ++ post) (B : Nat) (s : VMState)
    (hlen : prog.length ≤ MAX_INSTRS)
    (hroom : s.stack.length + 2 ≤ B) (hcap : s.stack.length + 2 ≤ MAX_STACK) :
    ∃ v inp2, StepsP prog (fun t => t.stack.length ≤ B)
      ((pre.length : Int)) s ((pre.length : Int) + (e.length : Int))
      { s with stack := v :: s.stack, input := inp2 } := by
  cases he with
  | atom ha =>
    have hl : ((e.length : Nat) : Int) = 1 := by rw [atom_length ha]; rfl
    rw [hl]
    exact atom_exec ha hprog B s hlen (by omega) (by omega)
  | binAdd ha hb =>
    rename_i a2 b2
    have hl : (((a2 ++ b2 ++ [(⟨.add, 0⟩ : Instr)]).length : Nat) : Int) = 3 := by
      simp [List.length_append, atom_length ha, atom_length hb]
    rw [hl]
    refine two_atoms_then_binop ha hb _ hprog B s hlen hroom hcap ?_
    intro t v2 v1 rest hstk pc hf
    exact ⟨i64 (v1 + v2), step_add t hf hstk⟩
  | binSub ha hb =>
    rename_i a2 b2
    have hl : (((a2 ++ b2 ++ [(⟨.sub, 0⟩ : Instr)]).length : Nat) : Int) = 3 := by
      simp [List.length_append, atom_length ha, atom_length hb]
    rw [hl]
    refine two_atoms_then_binop ha hb _ hprog B s hlen hroom hcap ?_
    intro t v2 v1 rest hstk pc hf
    exact ⟨i64 (v1 - v2), step_sub t hf hstk⟩
  | binEq ha hb =>
    rename_i a2 b2
    have hl : (((a2 ++ b2 ++ [(⟨.eq, 0⟩ : Instr)]).length : Nat) : Int) = 3 := by
      simp [List.length_append, atom_length ha, atom_length hb]
    rw [hl]
    refine two_atoms_then_binop ha hb _ hprog B s hlen hroom hcap ?_
    intro t v2 v1 rest hstk pc hf
    exact ⟨if v1 = v2 then 1 else 0, step_eq_op t hf hstk⟩
  | binLt ha hb =>
    rename_i a2 b2
    have hl : (((a2 ++ b2 ++ [(⟨.lt, 0⟩ : Instr)]).length : Nat) : Int) = 3 := by
      simp [List.length_append, atom_length ha, atom_length hb]
    rw [hl]
    refine two_atoms_then_binop ha hb _ hprog B s hlen hroom hcap ?_
    intro t v2 v1 rest hstk pc hf
    exact ⟨if v1 < v2 then 1 else 0, step_lt_op t hf hstk⟩

/-- Executing the code emitted for a statement leaves the operand stack exactly as it was, keeping the depth within two of the starting depth, unless an assertion fails, in which case the run stops at an ERROR instruction with the entry stack restored. -/
theorem stmt_exec {c : List Instr} (hc : StmtCode c) :
    ∀ (prog pre post : List Instr) (B : Nat) (s : VMState),
    prog = pre ++ c ++ post →
    prog.length ≤ MAX_INSTRS →
    s.stack.length + 2 ≤ B →
    s.stack.length + 2 ≤ MAX_STACK →
    (∃ vars2 inp2 out2, StepsP prog (fun t => t.stack.length ≤ B)
        ((pre.length : Int)) s ((pre.length : Int) + (c.length : Int))
        { s with vars := vars2, input := inp2, output := out2 }) ∨
    (∃ (pcE : Int) (vars2 : List (Nat × Int)) (inp2 out2 : List Int),
        StepsP prog (fun t => t.stack.length ≤ B)
          ((pre.length : Int)) s pcE { s with vars := vars2, input := inp2, output := out2 } ∧
        step prog pcE { s with vars := vars2, input := inp2, output := out2 } =
          .rterror { s with vars := vars2, input := inp2, output := out2 }) := by
  induction hc with
  | nil =>
    intro prog pre post B s hprog hlen hroom hcap
    exact Or.inl ⟨s.vars, s.input, s.output, .refl _ _ (by omega)⟩
  | decl i he =>
    rename_i e
    intro prog pre post B s hprog hlen hroom hcap
    obtain ⟨v, inp2, hE⟩ := expr_exec he
      (show prog = pre ++ e ++ ([⟨.setlocal, i⟩] ++ post) by rw [hprog]; simp) B s hlen hroom hcap
    have hfs : fetch prog ((pre.length : Int) + (e.length : Int)) = some ⟨.setlocal, i⟩ := by
      have hp2 : prog = (pre ++ e) ++ ⟨.setlocal, i⟩ :: post := by rw [hprog]; simp
      have hfa := fetch_at hp2 hlen
      have hc2 : (((pre ++ e).length : Nat) : Int) = (pre.length : Int) + (e.length : Int) := by
        push_cast [List.length_append, List.length_cons, List.length_nil]
        ring
      rw [hc2] at hfa
      exact hfa
    have hstep := step_setlocal { s with stack := v :: s.stack, input := inp2 } hfs rfl
    left
    refine ⟨(i.toNat, v) :: s.vars, inp2, s.output, ?_⟩
    have hchain := hE.trans (.tail (by simp; omega) hstep (.refl _ _ (by simp; omega)))
    have hfin : ((pre.length : Int) + (e.length : Int)) + 1 =
        (pre.length : Int) + (((e ++ [(⟨.setlocal, i⟩ : Instr)]).length : Nat) : Int) := by
      push_cast [List.length_append, List.length_cons, List.length_nil]
      ring
    rw [hfin] at hchain
    exact hchain
  | printstmt he =>
    rename_i e
    intro prog pre post B s hprog hlen hroom hcap
    obtain ⟨v, inp2, hE⟩ := expr_exec he
      (show prog = pre ++ e ++ ([⟨.print, 0⟩] ++ post) by rw [hprog]; simp) B s hlen hroom hcap
    have hfs : fetch prog ((pre.length : Int) + (e.length : Int)) = some ⟨.print, 0⟩ := by
      have hp2 : prog = (pre ++ e) ++ ⟨.print, 0⟩ :: post := by rw [hprog]; simp
      have hfa := fetch_at hp2 hlen
      have hc2 : (((pre ++ e).length : Nat) : Int) = (pre.length : Int) + (e.length : Int) := by
        push_cast [List.length_append, List.length_cons, List.length_nil]
        ring
      rw [hc2] at hfa
      exact hfa
    have hstep := step_print { s with stack := v :: s.stack, input := inp2 } hfs rfl
    left
    refine ⟨s.vars, inp2, s.output ++ [v], ?_⟩
    have hchain := hE.trans (.tail (by simp; omega) hstep (.refl _ _ (by simp; omega)))
    have hfin : ((pre.length : Int) + (e.length : Int)) + 1 =
        (pre.length : Int) + (((e ++ [(⟨.print, 0⟩ : Instr)]).length : Nat) : Int) := by
      push_cast [List.length_append, List.length_cons, List.length_nil]
      ring
    rw [hfin] at hchain
    exact hchain
  | assertstmt he =>
    rename_i e
    intro prog pre post B s hprog hlen hroom hcap
    obtain ⟨v, inp2, hE⟩ := expr_exec he
      (show prog = pre ++ e ++ ([⟨.if_, 1⟩, ⟨.error, 0⟩] ++ post) by rw [hprog]; simp) B s hlen hroom hcap
    have hfs : fetch prog ((pre.length : Int) + (e.length : Int)) = some ⟨.if_, 1⟩ := by
      have hp2 : prog = (pre ++ e) ++ ⟨.if_, 1⟩ :: (⟨.error, 0⟩ :: post) := by rw [hprog]; simp
      have hfa := fetch_at hp2 hlen
      have hc2 : (((pre ++ e).length : Nat) : Int) = (pre.length : Int) + (e.length : Int) := by
        push_cast [List.length_append, List.length_cons, List.length_nil]
        ring
      rw [hc2] at hfa
      exact hfa
    have hstep := step_if { s with stack := v :: s.stack, input := inp2 } hfs rfl
    by_cases hv : v = 0
    · rw [if_pos hv] at hstep
      have hfe : fetch prog ((pre.length : Int) + (e.length : Int) + 1) = some ⟨.error, 0⟩ := by
        have hp3 : prog = (pre ++ e ++ [⟨.if_, 1⟩]) ++ ⟨.error, 0⟩ :: post := by rw [hprog]; simp
        have hfa := fetch_at hp3 hlen
        have hc3 : (((pre ++ e ++ [(⟨.if_, 1⟩ : Instr)]).length : Nat) : Int) =
            (pre.length : Int) + (e.length : Int) + 1 := by
          push_cast [List.length_append, List.length_cons, List.length_nil]
          ring
        rw [hc3] at hfa
        exact hfa
      right
      refine ⟨(pre.length : Int) + (e.length : Int) + 1, s.vars, inp2, s.output, ?_, ?_⟩
      · exact hE.trans (.tail (by simp; omega) hstep (.refl _ _ (by simp; omega)))
      · exact step_error_op _ hfe
    · rw [if_neg hv] at hstep
      left
      refine ⟨s.vars, inp2, s.output, ?_⟩
      have hchain := hE.trans (.tail (by simp; omega) hstep (.refl _ _ (by simp; omega)))
      have hfin : ((pre.length : Int) + (e.length : Int)) + 1 + 1 =
          (pre.length : Int) + (((e ++ [(⟨.if_, 1⟩ : Instr), (⟨.error, 0⟩ : Instr)]).length : Nat) : Int) := by
        push_cast [List.length_append, List.length_cons, List.length_nil]
        ring
      rw [hfin] at hchain
      exact hchain
  | ifstmt he hb ih =>
    rename_i e b
    intro prog pre post B s hprog hlen hroom hcap
    obtain ⟨v, inp2, hE⟩ := expr_exec he
      (show prog = pre ++ e ++ (⟨.ifnot, (b.length : Int)⟩ :: b ++ post) by rw [hprog]; simp) B s hlen hroom hcap
    have hfs : fetch prog ((pre.length : Int) + (e.length : Int)) = some ⟨.ifnot, (b.length : Int)⟩ := by
      have hp2 : prog = (pre ++ e) ++ ⟨.ifnot, (b.length : Int)⟩ :: (b ++ post) := by rw [hprog]; simp
      have hfa := fetch_at hp2 hlen
      have hc2 : (((pre ++ e).length : Nat) : Int) = (pre.length : Int) + (e.length : Int) := by
        push_cast [List.length_append, List.length_cons, List.length_nil]
        ring
      rw [hc2] at hfa
      exact hfa
    have hstep := step_ifnot { s with stack := v :: s.stack, input := inp2 } hfs rfl
    by_cases hv : v = 0
    · rw [if_pos hv] at hstep
      left
      refine ⟨s.vars, inp2, s.output, ?_⟩
      have hchain := hE.trans (.tail (by simp; omega) hstep (.refl _ _ (by simp; omega)))
      have hfin : ((pre.length : Int) + (e.length : Int)) + 1 + (b.length : Int) =
          (pre.length : Int) + (((e ++ [(⟨.ifnot, (b.length : Int)⟩ : Instr)] ++ b).length : Nat) : Int) := by
        push_cast [List.length_append, List.length_cons, List.length_nil]
        ring
      rw [hfin] at hchain
      exact hchain
    · rw [if_neg hv] at hstep
      have hbody := ih prog (pre ++ e ++ [⟨.ifnot, (b.length : Int)⟩]) post B
        { s with input := inp2 } (by rw [hprog]; simp) hlen (by simp; omega) (by simp; omega)
      have hposb : (((pre ++ e ++ [(⟨.ifnot, (b.length : Int)⟩ : Instr)]).length : Nat) : Int) =
          (pre.length : Int) + (e.length : Int) + 1 := by
        push_cast [List.length_append, List.length_cons, List.length_nil]
        ring
      rw [hposb] at hbody
      have hhead := hE.trans (.tail (by simp; omega) hstep (.refl _ _ (by simp; omega)))
      rcases hbody with ⟨vars2, inp3, out3, hB2⟩ | ⟨pcE, vars2, inp3, out3, hB2, herr⟩
      · left
        refine ⟨vars2, inp3, out3, ?_⟩
        have hchain := hhead.trans hB2
        have hfin : ((pre.length : Int) + (e.length : Int)) + 1 + (b.length : Int) =
            (pre.length : Int) + (((e ++ [(⟨.ifnot, (b.length : Int)⟩ : Instr)] ++ b).length : Nat) : Int) := by
          push_cast [List.length_append, List.length_cons, List.length_nil]
          ring
        rw [hfin] at hchain
        exact hchain
      · right
        exact ⟨pcE, vars2, inp3, out3, hhead.trans hB2, herr⟩
  | seq ha hb iha ihb =>
    rename_i a b
    intro prog pre post B s hprog hlen hroom hcap
    have h1 := iha prog pre (b ++ post) B s (by rw [hprog]; simp) hlen hroom hcap
    rcases h1 with ⟨vars2, inp2, out2, hA⟩ | ⟨pcE, vars2, inp2, out2, hA, herr⟩
    · have h2 := ihb prog (pre ++ a) post B { s with vars := vars2, input := inp2, output := out2 }
        (by rw [hprog]; simp) hlen (by simp; omega) (by simp; omega)
      have hposa : (((pre ++ a).length : Nat) : Int) = (pre.length : Int) + (a.length : Int) := by
        push_cast [List.length_append, List.length_cons, List.length_nil]
        ring
      rw [hposa] at h2
      rcases h2 with ⟨vars3, inp3, out3, hB2⟩ | ⟨pcE, vars3, inp3, out3, hB2, herr⟩
      · left
        refine ⟨vars3, inp3, out3, ?_⟩
        have hchain := hA.trans hB2
        have hfin : ((pre.length : Int) + (a.length : Int)) + (b.length : Int) =
            (pre.length : Int) + (((a ++ b).length : Nat) : Int) := by
          push_cast [List.length_append, List.length_cons, List.length_nil]
          ring
        rw [hfin] at hchain
        exact hchain
      · right
        exact ⟨pcE, vars3, inp3, out3, hA.trans hB2, herr⟩
    · right
      exact ⟨pcE, vars2, inp2, out2, hA, herr⟩

/-- Expression code is at most three instructions. -/
theorem expr_length_le {e : List Instr} (he : ExprCode e) : e.length ≤ 3 := by
  cases he with
  | atom ha => rw [atom_length ha]; omega
  | binAdd ha hb => simp [List.length_append, atom_length ha, atom_length hb]
  | binSub ha hb => simp [List.length_append, atom_length ha, atom_length hb]
  | binEq ha hb => simp [List.length_append, atom_length ha, atom_length hb]
  | binLt ha hb => simp [List.length_append, atom_length ha, atom_length hb]

/-- Determinism of the step function: every configuration reachable from the start of a chain either lies properly on the chain, where the invariant holds and a further step exists, or is reachable from the end of the chain. -/
theorem stepsP_covers {prog : List Instr} {P : VMState → Prop} {a b : Int} {sa sb : VMState}
    (hchain : StepsP prog P a sa b sb) :
    ∀ {c : Int} {sc : VMState}, Steps prog a sa c sc →
      (P sc ∧ ∃ pc2 s2, step prog c sc = .next pc2 s2) ∨ Steps prog b sb c sc := by
  induction hchain with
  | refl pc s hp =>
    intro c sc hreach
    exact Or.inr hreach
  | tail hp hs h ih =>
    intro c sc hreach
    cases hreach with
    | refl _ _ _ => exact Or.inl ⟨hp, _, _, hs⟩
    | tail _ hs2 hrest =>
      rw [hs] at hs2
      injection hs2 with h1 h2
      subst h1
      subst h2
      exact ih hrest

/-- Nothing is reachable from a configuration that cannot step. -/
theorem steps_of_terminal {prog : List Instr} {b c : Int} {sb sc : VMState}
    (hterm : ∀ pc2 s2, step prog b sb ≠ .next pc2 s2)
    (h : Steps prog b sb c sc) : c = b ∧ sc = sb := by
  cases h with
  | refl _ _ _ => exact ⟨rfl, rfl⟩
  | tail _ hs _ => exact absurd hs (hterm _ _)

/-- At the index one past the emitted program the machine either reads the zero fill, an EXIT, and halts, or is at the very end of the allocation and the fetch is out of bounds. -/
theorem step_at_end {prog : List Instr} (s : VMState) :
    step prog ((prog.length : Int)) s = .halt s ∨
    step prog ((prog.length : Int)) s = .stuck .oobPc ((prog.length : Int)) s := by
  by_cases hlt : prog.length < MAX_INSTRS
  · left
    have hf : fetch prog ((prog.length : Int)) = some ⟨.exit, 0⟩ := by
      rw [fetch, if_pos ⟨Int.natCast_nonneg _, by exact_mod_cast hlt⟩, Int.toNat_natCast,
        List.getD_eq_default _ _ (le_refl _)]
    rw [step, hf]
  · right
    have hf : fetch prog ((prog.length : Int)) = none := by
      rw [fetch, if_neg]
      intro hcon
      exact hlt (by exact_mod_cast hcon.2)
    rw [step, hf]

/-- C10: the compiled code is stack balanced.  First: the code emitted for an expression (ExprCode, the shape established by parse_expr_shape), executed on its own from any starting stack with room, pushes exactly one net value, with the intermediate depth never more than two above the start.  Second: the code emitted for a statement (StmtCode, established by parse_go_master) leaves the stack depth unchanged, unless a failing assertion ends the run at its ERROR instruction with the entry stack restored.  Hence, third: in a parser produced program run from the empty stack, every reachable configuration has operand stack depth at most 2, and no pop is ever attempted on an empty stack. -/
theorem stack_balance {pfuel : Nat} {src : List Char} {prog : List Instr}
    (hparse : parse_file pfuel src = .ok prog) (hlen : prog.length ≤ MAX_INSTRS) :
    (∀ (e : List Instr), ExprCode e → ∀ (t : VMState),
        t.stack.length + 2 ≤ MAX_STACK →
        ∃ v inp2, StepsP e (fun u => u.stack.length ≤ t.stack.length + 2)
          0 t ((e.length : Int)) { t with stack := v :: t.stack, input := inp2 }) ∧
    (∀ (c : List Instr), StmtCode c → c.length ≤ MAX_INSTRS → ∀ (t : VMState),
        t.stack.length + 2 ≤ MAX_STACK →
        (∃ vars2 inp2 out2, StepsP c (fun u => u.stack.length ≤ t.stack.length + 2)
            0 t ((c.length : Int)) { t with vars := vars2, input := inp2, output := out2 }) ∨
        (∃ pcE vars2 inp2 out2, StepsP c (fun u => u.stack.length ≤ t.stack.length + 2)
            0 t pcE { t with vars := vars2, input := inp2, output := out2 } ∧
          step c pcE { t with vars := vars2, input := inp2, output := out2 } =
            .rterror { t with vars := vars2, input := inp2, output := out2 })) ∧
    (∀ (input : List Int) (pc : Int) (sc : VMState),
        Steps prog 0 (init_state input) pc sc →
        sc.stack.length ≤ 2 ∧ ∀ p q, step prog pc sc ≠ .stuck .popEmpty p q) := by
  refine ⟨?_, ?_, ?_⟩
  · intro e he t ht
    have hle : e.length ≤ MAX_INSTRS := by
      have := expr_length_le he
      simp [MAX_INSTRS]
      omega
    have hx := expr_exec he (show e = [] ++ e ++ [] by simp) (t.stack.length + 2) t hle
      (le_refl _) ht
    simpa using hx
  · intro c hc hclen t ht
    have hx := stmt_exec hc c [] [] (t.stack.length + 2) t (by simp) hclen (le_refl _) ht
    simpa using hx
  · intro input pc sc hreach
    have hstmt := parse_file_shape hparse
    have hmain := stmt_exec hstmt prog [] [] 2 (init_state input) (by simp) hlen
      (by simp [init_state]) (by simp [init_state, MAX_STACK])
    have h0 : (((([] : List Instr)).length : Int)) = (0 : Int) := rfl
    rcases hmain with ⟨vars2, inp2, out2, hchain⟩ | ⟨pcE, vars2, inp2, out2, hchain, herr⟩
    · have hz : ((0 : Int) + (prog.length : Int)) = (prog.length : Int) := by ring
      rw [h0, hz] at hchain
      rcases stepsP_covers hchain hreach with ⟨hP, pc2, s2, hnext⟩ | hafter
      · refine ⟨hP, fun p q hcon => ?_⟩
        rw [hcon] at hnext
        exact StepRes.noConfusion hnext
      · have hterm : ∀ p2 t2, step prog ((prog.length : Int))
            { init_state input with vars := vars2, input := inp2, output := out2 } ≠ .next p2 t2 := by
          intro p2 t2 hcon
          rcases @step_at_end prog
              { init_state input with vars := vars2, input := inp2, output := out2 }
              with hh | hh <;> rw [hh] at hcon <;> exact StepRes.noConfusion hcon
        obtain ⟨hpc, hsc⟩ := steps_of_terminal hterm hafter
        subst hpc
        subst hsc
        refine ⟨by simp [init_state], fun p q hcon => ?_⟩
        rcases @step_at_end prog
            { init_state input with vars := vars2, input := inp2, output := out2 }
            with hh | hh <;> rw [hh] at hcon
        · exact StepRes.noConfusion hcon
        · injection hcon with hr hp hs
          exact StuckReason.noConfusion hr
    · rw [h0] at hchain
      rcases stepsP_covers hchain hreach with ⟨hP, pc2, s2, hnext⟩ | hafter
      · refine ⟨hP, fun p q hcon => ?_⟩
        rw [hcon] at hnext
        exact StepRes.noConfusion hnext
      · have hterm : ∀ p2 t2, step prog pcE
            { init_state input with vars := vars2, input := inp2, output := out2 } ≠ .next p2 t2 := by
          intro p2 t2 hcon
          rw [herr] at hcon
          exact StepRes.noConfusion hcon
        obtain ⟨hpc, hsc⟩ := steps_of_terminal hterm hafter
        subst hpc
        subst hsc
        refine ⟨by simp [init_state], fun p q hcon => ?_⟩
        rw [herr] at hcon
        exact StepRes.noConfusion hcon

/-- A canonical chain carries exactly the slot indices length - 1 down to 0, so indices are pairwise distinct and none is ever reused. -/
theorem chainWF_map_snd : ∀ {L : Locals}, chainWF L = true →
    L.map Prod.snd = (List.range L.length).reverse := by
  intro L
  induction L with
  | nil => intro h; rfl
  | cons v rest ih =>
    intro h
    simp [chainWF] at h
    simp [List.range_succ, ih h.2, h.1]

/-- C6: parsing a statement only ever extends the chain of locals: the old chain is a suffix of the new one, so entering or leaving a begin end block never pops declarations; the canonical descending index shape, in which each new declaration receives the previous maximum plus one or 0 for the first, is preserved; every name already declared keeps resolving to its original slot from every later reference point, including inside nested blocks; and a canonical chain holds the distinct indices length - 1 down to 0, so no slot is reused. -/
theorem locals_chain_monotone {fuel : Nat} {s s' : List Char} {insns insns' : List Instr}
    {locals locals' : Locals}
    (h : parse_stmt fuel s insns locals = .ok (s', insns', locals')) :
    locals.IsSuffix locals' ∧
    (chainWF locals = true → chainWF locals' = true) ∧
    (∀ id r, find_local locals id = some r → find_local locals' id = some r) ∧
    (chainWF locals' = true → locals'.map Prod.snd = (List.range locals'.length).reverse) := by
  have hm := parse_go_master fuel false s insns locals s' insns' locals' h
  exact ⟨hm.2.1, hm.2.2.1, hm.2.2.2, fun hw => chainWF_map_snd hw⟩

/-- C3: compiling an if statement first emits the code for the test expression, then an IFNOT instruction with a placeholder immediate 0, then the code for the body statement, and finally overwrites the placeholder with the number of body instructions: the index of the IFNOT plus the default post fetch increment plus the patched immediate is exactly the index of the first instruction after the body. -/
theorem if_backpatch {fuel : Nat} {s t : List Char} {insns : List Instr} {locals : Locals}
    {s' : List Char} {insns' : List Instr} {locals' : Locals}
    (hpre : eat_ws s = 'i' :: 'f' :: t)
    (h : parse_stmt (fuel + 1) s insns locals = .ok (s', insns', locals')) :
    ∃ (e b : List Instr) (s1 s2 : List Char),
      parse_expr (eat_ws t) insns locals = .ok (s1, insns ++ e) ∧ ExprCode e ∧
      expect_token s1 (("then").toList) = .ok s2 ∧
      parse_stmt fuel s2 (insns ++ e ++ [⟨.ifnot, 0⟩]) locals =
        .ok (s', insns ++ e ++ [⟨.ifnot, 0⟩] ++ b, locals') ∧ StmtCode b ∧
      insns' = insns ++ e ++ [⟨.ifnot, (b.length : Int)⟩] ++ b ∧
      ((insns ++ e).length : Int) + 1 + (b.length : Int) = (insns'.length : Int) := by
  have hws : eat_ws ('i' :: 'f' :: t) = 'i' :: 'f' :: t := eat_ws_cons_of_not_ws _ rfl
  have h1 : match_token (eat_ws s) (("#").toList) = (false, 'i' :: 'f' :: t) := by
    rw [match_token_neg (by rw [eat_ws_idem, hpre]; rfl), eat_ws_idem, hpre]
  have h2 : match_token ('i' :: 'f' :: t) (("let").toList) = (false, 'i' :: 'f' :: t) := by
    rw [match_token_neg (by rw [hws]; rfl), hws]
  have h3 : match_token ('i' :: 'f' :: t) (("if").toList) = (true, eat_ws t) := by
    rw [match_token_pos (by rw [hws]; simp [List.isPrefixOf]), hws]
    simp
  unfold parse_stmt parse_go at h
  simp only [h1, h2, h3] at h
  rcases hE : parse_expr (eat_ws t) insns locals with e0 | ⟨s4, insnsE⟩
  · simp only [hE] at h
    exact Except.noConfusion h
  · simp only [hE] at h
    obtain ⟨e, rfl, hEcode⟩ := parse_expr_shape hE
    rcases hT : expect_token s4 (("then").toList) with e2 | s5
    · simp only [hT] at h
      exact Except.noConfusion h
    · simp only [hT] at h
      rcases hB : parse_go fuel false s5 (APPEND_INSN (insns ++ e) ⟨.ifnot, 0⟩) locals with
        e3 | ⟨s6, insns2, locals1⟩
      · simp only [hB] at h
        exact Except.noConfusion h
      · simp only [hB] at h
        obtain ⟨⟨b, hb, hBcode⟩, hsuf, hwf, hfind⟩ :=
          parse_go_master fuel false s5 _ locals s6 insns2 locals1 hB
        simp only [Except.ok.injEq, Prod.mk.injEq] at h
        obtain ⟨hs, hi, hl⟩ := h
        subst hs
        subst hi
        subst hl
        have h4 : insns2 = (insns ++ e) ++ ⟨.ifnot, 0⟩ :: b := by
          rw [hb]
          simp [APPEND_INSN]
        have himm : ((insns2.length : Int) - (((insns ++ e).length : Nat) : Int) - 1) =
            (b.length : Int) := by
          rw [h4]
          simp [List.length_append]
        have hpatch : patch_imm insns2 (insns ++ e).length
            ((insns2.length : Int) - (((insns ++ e).length : Nat) : Int) - 1)
            = (insns ++ e) ++ ⟨.ifnot, (b.length : Int)⟩ :: b := by
          rw [himm, h4, patch_imm, getD_after_prefix, set_after_prefix]
        refine ⟨e, b, s4, s5, rfl, hEcode, hT, ?_, hBcode, ?_, ?_⟩
        · rw [h4] at hB
          have hgoal : insns ++ e ++ [(⟨.ifnot, 0⟩ : Instr)] ++ b =
              insns ++ e ++ (⟨.ifnot, 0⟩ :: b) := by simp
          rw [hgoal]
          exact hB
        · rw [hpatch]
          simp
        · rw [hpatch]
          push_cast [List.length_append, List.length_cons]
          ring

/-- C5: compiling an assert statement emits the test expression code, an IF with immediate 1, and an ERROR instruction.  Executing the compiled assertion with a nonzero test value continues silently two instructions ahead, with no output and no state change beyond popping the test value; with a zero test value the run reaches the ERROR instruction and ends as a run time error, so no statement after the assert executes. -/
theorem assert_semantics {fuel : Nat} {s t : List Char} {insns : List Instr} {locals : Locals}
    {s' : List Char} {insns' : List Instr} {locals' : Locals}
    (hpre : eat_ws s = 'a' :: 's' :: 's' :: 'e' :: 'r' :: 't' :: t)
    (h : parse_stmt (fuel + 1) s insns locals = .ok (s', insns', locals')) :
    ∃ (e : List Instr) (s1 : List Char),
      parse_expr (eat_ws t) insns locals = .ok (s1, insns ++ e) ∧ ExprCode e ∧
      s' = s1 ∧ locals' = locals ∧
      insns' = insns ++ e ++ [⟨.if_, 1⟩, ⟨.error, 0⟩] ∧
      (∀ (fuel2 : Nat) (v : Int) (st : List Int) (vars : List (Nat × Int))
        (inp out : List Int), v ≠ 0 → insns'.length ≤ MAX_INSTRS →
        eval insns' (fuel2 + 1) ((insns.length : Int) + (e.length : Int))
            ⟨v :: st, vars, inp, out⟩ =
          eval insns' fuel2 ((insns.length : Int) + (e.length : Int) + 2)
            ⟨st, vars, inp, out⟩) ∧
      (∀ (fuel2 : Nat) (st : List Int) (vars : List (Nat × Int)) (inp out : List Int),
        insns'.length ≤ MAX_INSTRS →
        eval insns' (fuel2 + 1 + 1) ((insns.length : Int) + (e.length : Int))
            ⟨0 :: st, vars, inp, out⟩ =
          .rterror ⟨st, vars, inp, out⟩) := by
  have hl : eat_ws ('a' :: 's' :: 's' :: 'e' :: 'r' :: 't' :: t) =
      'a' :: 's' :: 's' :: 'e' :: 'r' :: 't' :: t := eat_ws_cons_of_not_ws _ rfl
  have h1 : match_token (eat_ws s) (("#").toList) =
      (false, 'a' :: 's' :: 's' :: 'e' :: 'r' :: 't' :: t) := by
    rw [match_token_neg (by rw [eat_ws_idem, hpre]; rfl), eat_ws_idem, hpre]
  have h2 : match_token ('a' :: 's' :: 's' :: 'e' :: 'r' :: 't' :: t) (("let").toList) =
      (false, 'a' :: 's' :: 's' :: 'e' :: 'r' :: 't' :: t) := by
    rw [match_token_neg (by rw [hl]; rfl), hl]
  have h3 : match_token ('a' :: 's' :: 's' :: 'e' :: 'r' :: 't' :: t) (("if").toList) =
      (false, 'a' :: 's' :: 's' :: 'e' :: 'r' :: 't' :: t) := by
    rw [match_token_neg (by rw [hl]; rfl), hl]
  have h4 : match_token ('a' :: 's' :: 's' :: 'e' :: 'r' :: 't' :: t) (("begin").toList) =
      (false, 'a' :: 's' :: 's' :: 'e' :: 'r' :: 't' :: t) := by
    rw [match_token_neg (by rw [hl]; rfl), hl]
  have h5 : match_token ('a' :: 's' :: 's' :: 'e' :: 'r' :: 't' :: t) (("print").toList) =
      (false, 'a' :: 's' :: 's' :: 'e' :: 'r' :: 't' :: t) := by
    rw [match_token_neg (by rw [hl]; rfl), hl]
  have h6 : match_token ('a' :: 's' :: 's' :: 'e' :: 'r' :: 't' :: t) (("assert").toList) =
      (true, eat_ws t) := by
    rw [match_token_pos (by rw [hl]; simp [List.isPrefixOf]), hl]
    simp
  unfold parse_stmt parse_go at h
  simp only [h1, h2, h3, h4, h5, h6] at h
  rcases hE : parse_expr (eat_ws t) insns locals with e0 | ⟨s7, insnsE⟩
  · simp only [hE] at h
    exact Except.noConfusion h
  · simp only [hE] at h
    obtain ⟨e, rfl, hEcode⟩ := parse_expr_shape hE
    simp only [Except.ok.injEq, Prod.mk.injEq] at h
    obtain ⟨hs, hi, hlcl⟩ := h
    subst hs
    subst hi
    subst hlcl
    have hshape : APPEND_INSN (APPEND_INSN (insns ++ e) ⟨.if_, 1⟩) ⟨.error, 0⟩ =
        insns ++ e ++ [⟨.if_, 1⟩, ⟨.error, 0⟩] := by
      simp [APPEND_INSN]
    refine ⟨e, s7, rfl, hEcode, rfl, rfl, hshape, ?_, ?_⟩
    · intro fuel2 v st vars inp out hv hlen2
      rw [hshape] at hlen2
      have hfI : fetch (insns ++ e ++ [(⟨.if_, 1⟩ : Instr), (⟨.error, 0⟩ : Instr)])
          ((insns.length : Int) + (e.length : Int)) = some ⟨.if_, 1⟩ := by
        have hfa := fetch_at
          (show insns ++ e ++ [(⟨.if_, 1⟩ : Instr), (⟨.error, 0⟩ : Instr)] =
            (insns ++ e) ++ ⟨.if_, 1⟩ :: [⟨.error, 0⟩] by simp) hlen2
        have hc : (((insns ++ e).length : Nat) : Int) = (insns.length : Int) + (e.length : Int) := by
          push_cast [List.length_append]
          ring
        rw [hc] at hfa
        exact hfa
      have hsI := step_if (⟨v :: st, vars, inp, out⟩ : VMState) hfI rfl
      rw [if_neg hv] at hsI
      rw [hshape]
      have h12 : (insns.length : Int) + (e.length : Int) + 1 + 1 =
          (insns.length : Int) + (e.length : Int) + 2 := by ring
      rw [eval, hsI, h12]
    · intro fuel2 st vars inp out hlen2
      rw [hshape] at hlen2
      have hfI : fetch (insns ++ e ++ [(⟨.if_, 1⟩ : Instr), (⟨.error, 0⟩ : Instr)])
          ((insns.length : Int) + (e.length : Int)) = some ⟨.if_, 1⟩ := by
        have hfa := fetch_at
          (show insns ++ e ++ [(⟨.if_, 1⟩ : Instr), (⟨.error, 0⟩ : Instr)] =
            (insns ++ e) ++ ⟨.if_, 1⟩ :: [⟨.error, 0⟩] by simp) hlen2
        have hc : (((insns ++ e).length : Nat) : Int) = (insns.length : Int) + (e.length : Int) := by
          push_cast [List.length_append]
          ring
        rw [hc] at hfa
        exact hfa
      have hfE : fetch (insns ++ e ++ [(⟨.if_, 1⟩ : Instr), (⟨.error, 0⟩ : Instr)])
          ((insns.length : Int) + (e.length : Int) + 1) = some ⟨.error, 0⟩ := by
        have hfa := fetch_at
          (show insns ++ e ++ [(⟨.if_, 1⟩ : Instr), (⟨.error, 0⟩ : Instr)] =
            (insns ++ e ++ [⟨.if_, 1⟩]) ++ ⟨.error, 0⟩ :: [] by simp) hlen2
        have hc : (((insns ++ e ++ [(⟨.if_, 1⟩ : Instr)]).length : Nat) : Int) =
            (insns.length : Int) + (e.length : Int) + 1 := by
          push_cast [List.length_append, List.length_cons, List.length_nil]
          ring
        rw [hc] at hfa
        exact hfa
      have hsI := step_if (⟨(0 : Int) :: st, vars, inp, out⟩ : VMState) hfI rfl
      rw [if_pos rfl] at hsI
      have hsE := step_error_op (⟨st, vars, inp, out⟩ : VMState) hfE
      rw [hshape]
      have e1 : eval (insns ++ e ++ [(⟨.if_, 1⟩ : Instr), (⟨.error, 0⟩ : Instr)])
          (fuel2 + 1 + 1) ((insns.length : Int) + (e.length : Int)) ⟨0 :: st, vars, inp, out⟩ =
          eval (insns ++ e ++ [(⟨.if_, 1⟩ : Instr), (⟨.error, 0⟩ : Instr)])
          (fuel2 + 1) ((insns.length : Int) + (e.length : Int) + 1) ⟨st, vars, inp, out⟩ := by
        rw [eval, hsI]
      have e2 : eval (insns ++ e ++ [(⟨.if_, 1⟩ : Instr), (⟨.error, 0⟩ : Instr)])
          (fuel2 + 1) ((insns.length : Int) + (e.length : Int) + 1) ⟨st, vars, inp, out⟩ =
          .rterror ⟨st, vars, inp, out⟩ := by
        rw [eval, hsE]
      exact e1.trans e2

/-- C7: every program emitted by the parser terminates when executed: all IF and IFNOT immediates it emits are nonnegative, consequently the program counter strictly increases on every step, and running from the start with fuel beyond the program length never exhausts the fuel, for every input supplied to read_int. -/
theorem parser_programs_terminate {fuel : Nat} {src : List Char} {prog : List Instr}
    (h : parse_file fuel src = .ok prog) :
    jumpsNonneg prog ∧
    (∀ (pc pc1 : Int) (s s1 : VMState), step prog pc s = .next pc1 s1 → pc + 1 ≤ pc1) ∧
    (∀ (input : List Int) (fuel2 : Nat), prog.length + 1 ≤ fuel2 →
      (eval prog fuel2 0 (init_state input)).isTimeout = false) := by
  have hj := stmt_jumpsNonneg (parse_file_shape h)
  refine ⟨hj, fun pc pc1 s s1 hs => step_next_progress hj hs, fun input fuel2 hf => ?_⟩
  refine eval_no_timeout hj fuel2 0 (init_state input) le_rfl (by omega) ?_
  omega

/-- C3 witness: the statement if 1 then print 2. -/
theorem if_backpatch_witness :
    ∃ (e b : List Instr) (s1 s2 : List Char),
      parse_expr (eat_ws ((" 1 then print 2").toList)) [] [] = .ok (s1, [] ++ e) ∧ ExprCode e ∧
      expect_token s1 (("then").toList) = .ok s2 ∧
      parse_stmt 4 s2 ([] ++ e ++ [⟨.ifnot, 0⟩]) [] =
        .ok ([], [] ++ e ++ [⟨.ifnot, 0⟩] ++ b, []) ∧ StmtCode b ∧
      ([⟨.push, 1⟩, ⟨.ifnot, 2⟩, ⟨.push, 2⟩, ⟨.print, 0⟩] : List Instr) =
        [] ++ e ++ [⟨.ifnot, (b.length : Int)⟩] ++ b ∧
      ((([] : List Instr) ++ e).length : Int) + 1 + (b.length : Int) =
        (([⟨.push, 1⟩, ⟨.ifnot, 2⟩, ⟨.push, 2⟩, ⟨.print, 0⟩] : List Instr).length : Int) :=
  if_backpatch (s := ("if 1 then print 2").toList) (by decide)
    (rfl : parse_stmt (4 + 1) (("if 1 then print 2").toList) [] [] =
      .ok ([], [⟨.push, 1⟩, ⟨.ifnot, 2⟩, ⟨.push, 2⟩, ⟨.print, 0⟩], []))

/-- C5 witness: the statement assert 1. -/
theorem assert_semantics_witness :
    ∃ (e : List Instr) (s1 : List Char),
      parse_expr (eat_ws ((" 1").toList)) [] [] = .ok (s1, [] ++ e) ∧ ExprCode e ∧
      ([] : List Char) = s1 ∧ ([] : Locals) = [] ∧
      ([⟨.push, 1⟩, ⟨.if_, 1⟩, ⟨.error, 0⟩] : List Instr) = [] ++ e ++ [⟨.if_, 1⟩, ⟨.error, 0⟩] ∧
      (∀ (fuel2 : Nat) (v : Int) (st : List Int) (vars : List (Nat × Int))
        (inp out : List Int), v ≠ 0 →
        ([⟨.push, 1⟩, ⟨.if_, 1⟩, ⟨.error, 0⟩] : List Instr).length ≤ MAX_INSTRS →
        eval [⟨.push, 1⟩, ⟨.if_, 1⟩, ⟨.error, 0⟩] (fuel2 + 1)
            ((([] : List Instr).length : Int) + (e.length : Int)) ⟨v :: st, vars, inp, out⟩ =
          eval [⟨.push, 1⟩, ⟨.if_, 1⟩, ⟨.error, 0⟩] fuel2
            ((([] : List Instr).length : Int) + (e.length : Int) + 2) ⟨st, vars, inp, out⟩) ∧
      (∀ (fuel2 : Nat) (st : List Int) (vars : List (Nat × Int)) (inp out : List Int),
        ([⟨.push, 1⟩, ⟨.if_, 1⟩, ⟨.error, 0⟩] : List Instr).length ≤ MAX_INSTRS →
        eval [⟨.push, 1⟩, ⟨.if_, 1⟩, ⟨.error, 0⟩] (fuel2 + 1 + 1)
            ((([] : List Instr).length : Int) + (e.length : Int)) ⟨0 :: st, vars, inp, out⟩ =
          .rterror ⟨st, vars, inp, out⟩) :=
  assert_semantics (s := ("assert 1").toList) (by decide)
    (rfl : parse_stmt (3 + 1) (("assert 1").toList) [] [] =
      .ok ([], [⟨.push, 1⟩, ⟨.if_, 1⟩, ⟨.error, 0⟩], []))

/-- C6 witness: the declaration let a = 1 starting from the empty chain. -/
theorem locals_chain_monotone_witness :
    ([] : Locals).IsSuffix [(("a" : String), 0)] ∧
    (chainWF [] = true → chainWF [(("a" : String), 0)] = true) ∧
    (∀ id r, find_local [] id = some r → find_local [(("a" : String), 0)] id = some r) ∧
    (chainWF [(("a" : String), 0)] = true →
      ([(("a" : String), 0)] : Locals).map Prod.snd =
        (List.range ([(("a" : String), 0)] : Locals).length).reverse) :=
  locals_chain_monotone
    (rfl : parse_stmt 5 (("let a = 1").toList) [] [] =
      .ok ([], [⟨.push, 1⟩, ⟨.setlocal, 0⟩], [(("a" : String), 0)]))

/-- C7 witness: the program compiled from print 1. -/
theorem parser_programs_terminate_witness :
    jumpsNonneg [⟨.push, 1⟩, ⟨.print, 0⟩] ∧
    (∀ (pc pc1 : Int) (s s1 : VMState),
      step [⟨.push, 1⟩, ⟨.print, 0⟩] pc s = .next pc1 s1 → pc + 1 ≤ pc1) ∧
    (∀ (input : List Int) (fuel2 : Nat),
      ([⟨.push, 1⟩, ⟨.print, 0⟩] : List Instr).length + 1 ≤ fuel2 →
      (eval [⟨.push, 1⟩, ⟨.print, 0⟩] fuel2 0 (init_state input)).isTimeout = false) :=
  parser_programs_terminate
    (rfl : parse_file 20 (("print 1").toList) = .ok [⟨.push, 1⟩, ⟨.print, 0⟩])

/-- C10 witness: the program compiled from print 1, at its initial configuration. -/
theorem stack_balance_witness :
    ((init_state []).stack.length ≤ 2 ∧
      ∀ p q, step [⟨.push, 1⟩, ⟨.print, 0⟩] 0 (init_state []) ≠ .stuck .popEmpty p q) :=
  ((stack_balance
    (rfl : parse_file 20 (("print 1").toList) = .ok [⟨.push, 1⟩, ⟨.print, 0⟩])
    (by decide)).2.2) [] 0 (init_state []) (.refl _ _ trivial)
